import Mathlib

/-!
Verification development for the melwalletd wallet daemon.

We shallowly embed the wallet database layer (src/database.rs), the
transaction preparer (Wallet::prepare), and the secret store
(src/secrets.rs) as pure Lean functions, and settle the frozen claims
against them.

Modelling conventions, stated once:

The SQLite tables are modelled as association lists keyed by the typed
key of the table (the source stores keys via to_string, which is
injective for CoinID / TxHash / Address, so typed keys are faithful).
A plain SQL INSERT on a table with a primary key fails when the key is
already present (SQLITE_CONSTRAINT); this is tableInsert below, which
returns Except.  INSERT ... ON CONFLICT DO NOTHING is tableInsertIgnore.
A whole SQL transaction is modelled as an Except-returning function on
the database state: an error result means the transaction rolled back
and the state is unchanged.

Hashes (tmelcrypt / themelio_structs) are external to the repository:
hash_nosigs is passed as an explicit function argument where the code
calls Transaction::hash_nosigs, and CoinID::proposer_reward likewise.
Addresses, block heights and transaction hashes are modelled as Nat;
coin values (u128) are modelled as Nat, since none of the claims under
study exercises u128 overflow.
-/

/-- Denomination of a coin: Mel, Sym, the NewCustom mint sentinel
(called NewCoin in the source), or a minted custom denom named by the
hash of the minting transaction. -/
inductive Denom where
  | mel : Denom
  | sym : Denom
  | newCoin : Denom
  | custom : Nat → Denom
deriving DecidableEq, Repr

/-- Transaction kinds of themelio_structs; the wallet code only ever
distinguishes Normal from the rest. -/
inductive TxKind where
  | normal : TxKind
  | stake : TxKind
  | doscMint : TxKind
  | swap : TxKind
  | liqDeposit : TxKind
  | liqWithdraw : TxKind
  | faucet : TxKind
deriving DecidableEq, Repr

/-- CoinID: the index-th output of the transaction with no-sigs hash
txhash. -/
structure CoinID where
  txhash : Nat
  index : Nat
deriving DecidableEq, Repr

/-- CoinData: one transaction output. -/
structure CoinData where
  covhash : Nat
  value : Nat
  denom : Denom
  additionalData : List Nat
deriving DecidableEq, Repr

/-- CoinData together with the height at which the coin confirmed. -/
structure CoinDataHeight where
  coinData : CoinData
  height : Nat
deriving DecidableEq, Repr

/-- Transaction, as in themelio_structs: kind, inputs, outputs, fee,
covenants, data, sigs.  The no-sigs hash is not a field: it is an
external hash function passed around explicitly. -/
structure Tx where
  kind : TxKind
  inputs : List CoinID
  outputs : List CoinData
  fee : Nat
  covenants : List (List Nat)
  data : List Nat
  sigs : List (List Nat)
deriving DecidableEq, Repr

/-- Transaction.output_coinid(i as u8): the cast to u8 truncates the
output index modulo 256. -/
def Tx.outputCoinid (hashNosigs : Tx → Nat) (t : Tx) (i : Nat) : CoinID :=
  { txhash := hashNosigs t, index := i % 256 }

/-- Error values of the embedded fallible operations.  Each constructor
corresponds to one anyhow / rusqlite error message in the source. -/
inductive Err where
  | mandatoryInputNotFound : Err
  | inputNoLongerInWallet : CoinID → Err
  | duplicateKey : Err
  | insufficientFunds : Denom → Err
  | tooManyInputs : Err
  | notWellFormed : Err
  | signFailure : Nat → Err
  | nothing : Err
  | preparationFailed : Err
  | getSomeCoinsNothing : Err
  | remoteCoinListBad : Err
  | selfContradictoryCoinList : Err
  | spenderNotFound : Err
deriving DecidableEq, Repr

/-! ### Association-list tables -/

/-- Lookup of the row with a given primary key (first match). -/
def tlookup {κ α : Type} [DecidableEq κ] (m : List (κ × α)) (k : κ) : Option α :=
  match m with
  | [] => none
  | (k0, v0) :: rest => if k0 = k then some v0 else tlookup rest k

/-- Plain INSERT on a table whose first column is a primary key: fails
with a constraint violation when the key is already present. -/
def tableInsert {κ α : Type} [DecidableEq κ] (m : List (κ × α)) (k : κ) (v : α) :
    Except Err (List (κ × α)) :=
  match tlookup m k with
  | some _ => .error .duplicateKey
  | none => .ok (m ++ [(k, v)])

/-- INSERT ... ON CONFLICT DO NOTHING: keeps the existing row when the
key is already present. -/
def tableInsertIgnore {κ α : Type} [DecidableEq κ] (m : List (κ × α)) (k : κ) (v : α) :
    List (κ × α) :=
  match tlookup m k with
  | some _ => m
  | none => m ++ [(k, v)]

/-- Insert-or-replace, as used for the in-memory HashMap accumulators
(HashMap::insert overwrites the previous value). -/
def tupsert {κ α : Type} [DecidableEq κ] (m : List (κ × α)) (k : κ) (v : α) :
    List (κ × α) :=
  match m with
  | [] => [(k, v)]
  | (k0, v0) :: rest => if k0 = k then (k, v) :: rest else (k0, v0) :: tupsert rest k v

theorem tlookup_eq_none {κ α : Type} [DecidableEq κ] (m : List (κ × α)) (k : κ) :
    tlookup m k = none ↔ ∀ p ∈ m, p.1 ≠ k := by
  induction m with
  | nil => simp [tlookup]
  | cons hd tl ih =>
    obtain ⟨k0, v0⟩ := hd
    by_cases h : k0 = k
    · subst h
      simp [tlookup]
    · simp [tlookup, h, ih]

theorem tlookup_isSome_of_mem {κ α : Type} [DecidableEq κ] {m : List (κ × α)} {p : κ × α}
    (hp : p ∈ m) : (tlookup m p.1).isSome := by
  induction m with
  | nil => simp at hp
  | cons hd tl ih =>
    obtain ⟨k0, v0⟩ := hd
    rcases List.mem_cons.mp hp with h | h
    · subst h
      simp [tlookup]
    · by_cases hk : k0 = p.1
      · simp [tlookup, hk]
      · simpa [tlookup, hk] using ih h

theorem tlookup_append_right {κ α : Type} [DecidableEq κ] (m : List (κ × α)) (k : κ) (v : α)
    (h : tlookup m k = none) : tlookup (m ++ [(k, v)]) k = some v := by
  induction m with
  | nil => simp [tlookup]
  | cons hd tl ih =>
    obtain ⟨k0, v0⟩ := hd
    by_cases hk : k0 = k
    · simp [tlookup, hk] at h
    · simp [tlookup, hk] at h ⊢
      exact ih h

theorem tableInsert_ok {κ α : Type} [DecidableEq κ] {m m2 : List (κ × α)} {k : κ} {v : α}
    (h : tableInsert m k v = .ok m2) : tlookup m2 k = some v := by
  unfold tableInsert at h
  cases hl : tlookup m k with
  | some w => simp [hl] at h
  | none =>
    simp [hl] at h
    subst h
    exact tlookup_append_right m k v hl

theorem tableInsert_error_of_some {κ α : Type} [DecidableEq κ] {m : List (κ × α)} {k : κ}
    (v : α) {w : α} (h : tlookup m k = some w) : tableInsert m k v = .error .duplicateKey := by
  unfold tableInsert
  simp [h]

theorem tableInsertIgnore_isSome {κ α : Type} [DecidableEq κ] (m : List (κ × α)) (k : κ) (v : α) :
    (tlookup (tableInsertIgnore m k v) k).isSome := by
  unfold tableInsertIgnore
  cases hl : tlookup m k with
  | some w => simp [hl]
  | none => simp [tlookup_append_right m k v hl]

theorem tlookup_append_left {κ α : Type} [DecidableEq κ] {m : List (κ × α)} {k2 : κ} {w : α}
    (l : List (κ × α)) (h : tlookup m k2 = some w) : tlookup (m ++ l) k2 = some w := by
  induction m with
  | nil => simp [tlookup] at h
  | cons hd tl ih =>
    obtain ⟨k0, v0⟩ := hd
    by_cases hk : k0 = k2
    · simp [tlookup, hk] at h ⊢
      exact h
    · simp [tlookup, hk] at h ⊢
      exact ih h

theorem tableInsertIgnore_isSome_mono {κ α : Type} [DecidableEq κ] (m : List (κ × α))
    (k k2 : κ) (v : α) (h : (tlookup m k2).isSome) :
    (tlookup (tableInsertIgnore m k v) k2).isSome := by
  unfold tableInsertIgnore
  cases hl : tlookup m k with
  | some w => simpa using h
  | none =>
    cases hm : tlookup m k2 with
    | none => simp [hm] at h
    | some w2 => simp [tlookup_append_left _ hm]

/-! ### The wallet database (src/database.rs) -/

/-- Tables created by Database::open.  There are exactly seven; the
source also creates an index coins_index on coins(covhash). -/
def databaseOpenTables : List String :=
  [r"coins", r"coin_confirmations", r"pending_coins", r"spends", r"pending",
   r"transactions", r"wallet_names"]

/-- The database state: one association list per table, in schema order.
wallet_names maps a wallet name (modelled as Nat) to (covhash, covenant). -/
structure DB where
  coins : List (CoinID × CoinData)
  coinConfirmations : List (CoinID × Nat)
  pendingCoins : List (CoinID × Nat)
  spends : List (CoinID × Nat)
  pending : List (Nat × Nat)
  transactions : List (Nat × Tx)
  walletNames : List (Nat × Nat × List Nat)
deriving DecidableEq, Repr

/-- Well-formedness: every table respects its primary key (at most one
row per key).  SQLite guarantees this for the on-disk tables. -/
def DB.WF (st : DB) : Prop :=
  (st.coins.map Prod.fst).Nodup ∧ (st.coinConfirmations.map Prod.fst).Nodup ∧
  (st.pendingCoins.map Prod.fst).Nodup ∧ (st.spends.map Prod.fst).Nodup ∧
  (st.pending.map Prod.fst).Nodup ∧ (st.transactions.map Prod.fst).Nodup

instance (st : DB) : Decidable st.WF := by
  unfold DB.WF
  infer_instance

/-- Wallet::get_one_coin: pure lookup in coins. -/
def getOneCoin (st : DB) (coinId : CoinID) : Option CoinData :=
  tlookup st.coins coinId

/-- Wallet::get_coin_confirmation: join of coins and coin_confirmations. -/
def getCoinConfirmation (st : DB) (coinId : CoinID) : Option CoinDataHeight :=
  match getOneCoin st coinId with
  | none => none
  | some coindata =>
    match tlookup st.coinConfirmations coinId with
    | none => none
    | some height => some { coinData := coindata, height := height }

/-- The confirmation part of the get_coin_mapping WHERE clause:
exists (select .. from coin_confirmations where coinid matches). -/
def confirmExists (st : DB) (cid : CoinID) : Bool :=
  (tlookup st.coinConfirmations cid).isSome

/-- Exists (select .. from pending_coins where coinid matches). -/
def pendingCoinExists (st : DB) (cid : CoinID) : Bool :=
  (tlookup st.pendingCoins cid).isSome

/-- The spent-status part of the get_coin_mapping WHERE clause.  With
ignore_pending = false: not exists (spends row for this coinid).  With
ignore_pending = true: not exists (spends row for this coinid whose
spender txhash has no pending row). -/
def spendClauseOk (st : DB) (cid : CoinID) (ignorePending : Bool) : Bool :=
  if ignorePending then
    st.spends.all (fun row => row.1 != cid || (tlookup st.pending row.2).isSome)
  else
    st.spends.all (fun row => row.1 != cid)

/-- Wallet::get_coin_mapping.  The source accumulates the filtered rows
into a BTreeMap (ordered by CoinID); we keep the coins-table row order,
which never matters for the properties below.  The returned CoinData is
rebuilt with covhash := the wallet address, as in the source. -/
def getCoinMapping (st : DB) (covhash : Nat) (confirmed ignorePending : Bool) :
    List (CoinID × CoinData) :=
  (st.coins.filter (fun row =>
    row.2.covhash == covhash &&
    (if confirmed then confirmExists st row.1
     else confirmExists st row.1 || pendingCoinExists st row.1) &&
    spendClauseOk st row.1 ignorePending)).map
    (fun row => (row.1,
      { covhash := covhash, value := row.2.value, denom := row.2.denom,
        additionalData := row.2.additionalData }))

/-- Ordering used by rust sort_unstable_by_key on Option of BlockHeight:
the derived Ord on Option places None below every Some. -/
def optHeightLe (a b : Option Nat) : Bool :=
  match a, b with
  | none, _ => true
  | some _, none => false
  | some x, some y => x ≤ y

/-- The ordering of the claim text (ascending heights, None entries
last); used only to state claim C9. -/
def claimHeightLe (a b : Option Nat) : Bool :=
  match a, b with
  | _, none => true
  | none, some _ => false
  | some x, some y => x ≤ y

/-- Order on history entries by their snd (the Option height). -/
def histLe (a b : Nat × Option Nat) : Prop :=
  optHeightLe a.2 b.2 = true

instance : DecidableRel histLe := by
  unfold histLe
  infer_instance

instance : IsTotal (Nat × Option Nat) histLe where
  total := by
    intro a b
    unfold histLe optHeightLe
    rcases a.2 with _ | x <;> rcases b.2 with _ | y <;> simp
    omega

instance : IsTrans (Nat × Option Nat) histLe where
  trans := by
    intro a b c
    unfold histLe optHeightLe
    rcases a.2 with _ | x <;> rcases b.2 with _ | y <;> rcases c.2 with _ | z <;> simp
    omega

/-- Wallet::get_transaction_history.  Walks the wallet's coin rows
(left-joined with coin_confirmations), skips the proposer-reward coinid
of each confirmed height, collapses to one entry per txhash through a
HashMap (last write wins), then sorts by the Option height.
proposerReward stands for the external CoinID::proposer_reward. -/
def historyStep (proposerReward : Nat → CoinID) (acc : List (Nat × Option Nat))
    (p : CoinID × Option Nat) : List (Nat × Option Nat) :=
  match p.2 with
  | some h => if p.1 = proposerReward h then acc else tupsert acc p.1.txhash (some h)
  | none => tupsert acc p.1.txhash none

def getTransactionHistory (proposerReward : Nat → CoinID) (st : DB) (covhash : Nat) :
    List (Nat × Option Nat) :=
  let rows := st.coins.filter (fun row => row.2.covhash == covhash)
  let pairs := rows.map (fun row => (row.1, tlookup st.coinConfirmations row.1))
  let folded := pairs.foldl (historyStep proposerReward) []
  List.insertionSort histLe folded

/-- The spends inserts of commit_sent: plain INSERT (no on-conflict)
of (input, txhash) for every input, in order. -/
def spendsInsert (m : List (CoinID × Nat)) (inputs : List CoinID) (txhash : Nat) :
    Except Err (List (CoinID × Nat)) :=
  inputs.foldlM (fun acc input => tableInsert acc input txhash) m

/-- The output inserts of commit_sent, executed only for Normal
transactions: for output i, rewrite a NewCustom denom to
Custom(txhash), INSERT OR IGNORE into coins, plain INSERT into
pending_coins. -/
def outputStep (hashNosigs : Tx → Nat) (txn : Tx)
    (acc : List (CoinID × CoinData) × List (CoinID × Nat)) (p : Nat × CoinData) :
    Except Err (List (CoinID × CoinData) × List (CoinID × Nat)) :=
  let coinid := Tx.outputCoinid hashNosigs txn p.1
  let denom := if p.2.denom = Denom.newCoin then Denom.custom (hashNosigs txn) else p.2.denom
  let coins2 := tableInsertIgnore acc.1 coinid
    { covhash := p.2.covhash, value := p.2.value, denom := denom,
      additionalData := p.2.additionalData }
  match tableInsert acc.2 coinid (hashNosigs txn) with
  | .error e => .error e
  | .ok pc2 => .ok (coins2, pc2)

def outputsInsert (hashNosigs : Tx → Nat) (coins : List (CoinID × CoinData))
    (pcoins : List (CoinID × Nat)) (txn : Tx) :
    Except Err (List (CoinID × CoinData) × List (CoinID × Nat)) :=
  txn.outputs.enum.foldlM (outputStep hashNosigs txn) (coins, pcoins)

/-- Wallet::commit_sent.  One SQL transaction: check that every input
has a coin_confirmations row, cache the transaction, insert the spends,
insert the outputs into coins / pending_coins when the kind is Normal,
insert into pending.  Any failure rolls the whole transaction back,
which the Except models by returning no state. -/
def commitSent (hashNosigs : Tx → Nat) (st : DB) (txn : Tx) (timeout : Nat) :
    Except Err DB :=
  match txn.inputs.find? (fun input => (tlookup st.coinConfirmations input).isNone) with
  | some input => .error (.inputNoLongerInWallet input)
  | none =>
    let txhash := hashNosigs txn
    let transactions2 := tableInsertIgnore st.transactions txhash txn
    match spendsInsert st.spends txn.inputs txhash with
    | .error e => .error e
    | .ok spends2 =>
      match (if txn.kind = TxKind.normal then
          outputsInsert hashNosigs st.coins st.pendingCoins txn
        else .ok (st.coins, st.pendingCoins)) with
      | .error e => .error e
      | .ok cp =>
        match tableInsert st.pending txhash timeout with
        | .error e => .error e
        | .ok pending2 =>
          .ok { st with
                transactions := transactions2,
                spends := spends2,
                coins := cp.1,
                pendingCoins := cp.2,
                pending := pending2 }

/-! ### Wallet::network_sync -/

/-- Everything network_sync obtains from the node snapshot.  tip is
snapshot.current_header().height; remoteCoinCount is
snapshot.get_coin_count(covhash) after unwrap_or_default; remoteCoinList
is get_some_coins(tip, covhash); getCoin is snapshot.get_coin;
spenderOf abstracts the per-coin binary search over older snapshots
that locates the transaction spending a disappeared coin (none models
the failure of that search); keepFastPath is the fastrand sample
compared against 0.95. -/
structure SyncEnv where
  tip : Nat
  remoteCoinCount : Nat
  remoteCoinList : Option (List CoinID)
  getCoin : CoinID → Option CoinDataHeight
  spenderOf : CoinID → Option Tx
  keepFastPath : Bool

/-- Resolution of the remote coin list into a coinid-to-CoinDataHeight
map: locally confirmed coins are taken from the wallet, the rest are
fetched from the snapshot; a coin the snapshot cannot produce aborts
(the self-contradictory coin list error).  The source fetches the
non-local coins concurrently and inserts them after the local ones;
the resulting BTreeMap content is the same. -/
def coinListResolve (st : DB) (env : SyncEnv) (remote : List CoinID) :
    Except Err (List (CoinID × CoinDataHeight)) :=
  remote.foldlM (fun acc coinid =>
    match getCoinConfirmation st coinid with
    | some cdh => .ok (tupsert acc coinid cdh)
    | none =>
      match env.getCoin coinid with
      | some cdh => .ok (tupsert acc coinid cdh)
      | none => .error .selfContradictoryCoinList) []

/-- Discovery of the spenders of disappeared coins: walk the existing
confirmed-unspent coins that are absent from the freshly resolved coin
list, skip coins already covered by a previously found spender, and
record each spender transaction once (the source uses a HashSet). -/
def spenderDiscovery (st : DB) (env : SyncEnv) (existing : List (CoinID × CoinData))
    (coinList : List (CoinID × CoinDataHeight)) : Except Err (List Tx) :=
  ((existing.filter (fun c => (tlookup coinList c.1).isNone)).foldlM
    (fun (acc : List Tx × List CoinID) (c : CoinID × CoinData) =>
      if acc.2.contains c.1 then Except.ok acc
      else
        match getCoinConfirmation st c.1 with
        | some _ =>
          match env.spenderOf c.1 with
          | none => Except.error Err.spenderNotFound
          | some sp =>
            Except.ok (if acc.1.contains sp then acc.1 else acc.1 ++ [sp], acc.2 ++ sp.inputs)
        | none => Except.ok acc)
    (([] : List Tx), ([] : List CoinID))).map (fun acc => acc.1)

/-- The single write transaction at the end of network_sync: insert
every resolved coin into coins and coin_confirmations (on-conflict
ignore), insert the spends of every new spender (on-conflict ignore),
delete from pending every txhash owning a coin of the remote list,
delete from spends every row whose txhash corresponds to a pending with
expires below tip, delete from pending every row with expires below
tip, and delete from pending_coins every row whose txhash is no longer
in pending. -/
def syncApply (hashNosigs : Tx → Nat) (st : DB) (env : SyncEnv)
    (remoteCoinList : List CoinID) (coinList : List (CoinID × CoinDataHeight))
    (newSpenders : List Tx) : DB :=
  let coins2 := coinList.foldl
    (fun acc p => tableInsertIgnore acc p.1 p.2.coinData) st.coins
  let conf2 := coinList.foldl
    (fun acc p => tableInsertIgnore acc p.1 p.2.height) st.coinConfirmations
  let spends2 := newSpenders.foldl
    (fun acc sp => sp.inputs.foldl
      (fun a input => tableInsertIgnore a input (hashNosigs sp)) acc) st.spends
  let confirmedTxhashes := remoteCoinList.map (fun c => c.txhash)
  let pending2 := st.pending.filter
    (fun row => !(confirmedTxhashes.contains row.1))
  let spends3 := spends2.filter
    (fun row => !(pending2.any (fun p => p.1 == row.2 && decide (p.2 < env.tip))))
  let pending3 := pending2.filter (fun row => !(decide (row.2 < env.tip)))
  let pcoins2 := st.pendingCoins.filter
    (fun row => pending3.any (fun p => p.1 == row.2))
  { st with
    coins := coins2,
    coinConfirmations := conf2,
    spends := spends3,
    pending := pending3,
    pendingCoins := pcoins2 }

/-- Wallet::network_sync.  Fast path: when the local confirmed-unspent
coin count matches the remote count, nothing is pending, and the
random sample stays below 0.95, return with no writes.  Otherwise
resolve the full remote coin list, find spenders of disappeared coins,
and apply one write transaction: insert coins and confirmations
(on-conflict ignore), insert the spends of every new spender
(on-conflict ignore), delete pendings whose txhash gained a confirmed
coin, delete spends rows whose pending spender has expires below tip,
delete pendings with expires below tip, and delete pending_coins rows
whose txhash no longer is in pending. -/
def networkSync (hashNosigs : Tx → Nat) (st : DB) (covhash : Nat) (env : SyncEnv) :
    Except Err DB :=
  let pendingCount := st.pending.length
  let existingCoins := getCoinMapping st covhash true false
  if existingCoins.length = env.remoteCoinCount ∧ pendingCount = 0 ∧ env.keepFastPath = true then
    .ok st
  else
    match env.remoteCoinList with
    | none => .error .getSomeCoinsNothing
    | some remoteCoinList =>
      if remoteCoinList.length ≠ env.remoteCoinCount then .error .remoteCoinListBad
      else
        match coinListResolve st env remoteCoinList with
        | .error e => .error e
        | .ok coinList =>
          match spenderDiscovery st env existingCoins coinList with
          | .error e => .error e
          | .ok newSpenders => .ok (syncApply hashNosigs st env remoteCoinList coinList newSpenders)

/-! ### Wallet::prepare (transaction preparer) -/

/-- Read a denom-sum map with default 0 (BTreeMap get + unwrap_or). -/
def getD (m : List (Denom × Nat)) (d : Denom) : Nat :=
  (tlookup m d).getD 0

/-- Add v to the entry of d, creating it when absent (the entry().or_default
+= pattern of themelio_structs Transaction::total_outputs). -/
def addEntry (m : List (Denom × Nat)) (d : Denom) (v : Nat) : List (Denom × Nat) :=
  match m with
  | [] => [(d, v)]
  | (d0, v0) :: rest => if d0 = d then (d0, v0 + v) :: rest else (d0, v0) :: addEntry rest d v

/-- External dependency themelio_structs, Transaction::total_outputs:
the total output value per denomination, with the fee counting as a Mel
output (this is what makes the Mel balance include the fee). -/
def totalOutputs (t : Tx) : List (Denom × Nat) :=
  addEntry (t.outputs.foldl (fun m o => addEntry m o.denom o.value) []) Denom.mel t.fee

/-- Removal of every nobalance denom from a denom-sum map. -/
def removeDenoms (m : List (Denom × Nat)) (nobalance : List Denom) : List (Denom × Nat) :=
  m.filter (fun p => !(nobalance.contains p.1))

/-- Mandatory-input resolution at the top of Wallet::prepare: each
requested coinid must have a confirmation in the wallet, and the
results are collected into a BTreeMap. -/
def resolveMandatory (st : DB) (inputs : List CoinID) :
    Except Err (List (CoinID × CoinDataHeight)) :=
  inputs.foldlM (fun acc input =>
    match getCoinConfirmation st input with
    | none => Except.error Err.mandatoryInputNotFound
    | some cdh => Except.ok (tupsert acc input cdh)) []

/-- The greedy input-selection loop of gen_transaction: walk the
unspent coins, skip mandatory inputs, nobalance denoms and coins of a
foreign covhash, and take a coin while its denom is still short of the
output sum.  Returns the extended input list and input sum. -/
def selectStep (mandatory : List (CoinID × CoinDataHeight)) (nobalance : List Denom)
    (covhash : Nat) (outputSum : List (Denom × Nat))
    (acc : List CoinID × List (Denom × Nat)) (p : CoinID × CoinData) :
    List CoinID × List (Denom × Nat) :=
  if (tlookup mandatory p.1).isSome || nobalance.contains p.2.denom
      || p.2.covhash != covhash then acc
  else
    if getD acc.2 p.2.denom < getD outputSum p.2.denom then
      (acc.1 ++ [p.1], tupsert acc.2 p.2.denom (getD acc.2 p.2.denom + p.2.value))
    else acc

def selectCoins (mandatory : List (CoinID × CoinDataHeight)) (nobalance : List Denom)
    (covhash : Nat) (unspent : List (CoinID × CoinData)) (outputSum : List (Denom × Nat))
    (inputs0 : List CoinID) (inputSum0 : List (Denom × Nat)) :
    List CoinID × List (Denom × Nat) :=
  unspent.foldl (selectStep mandatory nobalance covhash outputSum) (inputs0, inputSum0)

/-- The change-construction loop of gen_transaction: for every entry of
the balanced output sum, the input surplus (checked_sub, erroring on a
shortfall) is paid back to the wallet as two halves when at least 2, as
a single output when 1, and, when 0, as a zero-valued output for the
Mel denom only. -/
def changeBlock (covhash : Nat) (inputSum : List (Denom × Nat)) (p : Denom × Nat) :
    List CoinData :=
  let difference := getD inputSum p.1 - p.2
  if difference > 0 ∨ p.1 = Denom.mel then
    if difference ≥ 2 then
      [{ covhash := covhash, value := difference / 2, denom := p.1,
         additionalData := [] },
       { covhash := covhash, value := difference - difference / 2, denom := p.1,
         additionalData := [] }]
    else
      [{ covhash := covhash, value := difference, denom := p.1,
         additionalData := [] }]
  else []

def changeStep (covhash : Nat) (inputSum : List (Denom × Nat)) (ch : List CoinData)
    (p : Denom × Nat) : Except Err (List CoinData) :=
  if p.2 ≤ getD inputSum p.1 then Except.ok (ch ++ changeBlock covhash inputSum p)
  else Except.error (Err.insufficientFunds p.1)

def changeOutputs (covhash : Nat) (outputSum inputSum : List (Denom × Nat)) :
    Except Err (List CoinData) :=
  outputSum.foldlM (changeStep covhash inputSum) []

/-- The candidate construction inside gen_transaction for one trial
fee, up to (and excluding) the signing step: build the skeleton Normal
transaction, add mandatory inputs, drop nobalance denoms from both
sums, greedily select further inputs, append the change outputs, and
apply the too-many-inputs and well-formedness guards.  isWellFormed
abstracts the external Transaction::is_well_formed. -/
def buildCandidate (covenant : List Nat) (covhash : Nat) (outputs : List CoinData)
    (mandatory : List (CoinID × CoinDataHeight)) (nobalance : List Denom)
    (unspent : List (CoinID × CoinData)) (isWellFormed : Tx → Bool) (fee : Nat) :
    Except Err Tx :=
  let txn0 : Tx :=
    { kind := TxKind.normal, inputs := [], outputs := outputs, fee := fee,
      covenants := [covenant], data := [], sigs := [] }
  let outputSum0 := totalOutputs txn0
  let inputs1 := mandatory.map (fun q => q.1)
  let inputSum1 := mandatory.foldl
    (fun m q => tupsert m q.2.coinData.denom
      (getD m q.2.coinData.denom + q.2.coinData.value)) []
  let outputSum := removeDenoms outputSum0 nobalance
  let inputSum2 := removeDenoms inputSum1 nobalance
  let sel := selectCoins mandatory nobalance covhash unspent outputSum inputs1 inputSum2
  match changeOutputs covhash outputSum sel.2 with
  | .error e => .error e
  | .ok change =>
    let txn : Tx := { txn0 with inputs := sel.1, outputs := outputs ++ change }
    if txn.inputs.length > 5000 then .error .tooManyInputs
    else if !(isWellFormed txn) then .error .notWellFormed
    else .ok txn

/-- Direction of the binary_search crate: Low moves the lower bound up,
High moves the upper bound down. -/
inductive Direction (α : Type) where
  | low : α → Direction α
  | high : α → Direction α
deriving DecidableEq, Repr

/-- The gen_transaction closure: build the candidate, sign it, and
classify by the fee test fee less-or-equal base_fee * 21 / 20 (Low when
it passes, High when it overpays); candidate-construction failures are
High, signing failures are Low.  baseFee abstracts the external
signed_txn.base_fee(fee_multiplier, 0, covenant_weight_from_bytes). -/
def genTransaction (covenant : List Nat) (covhash : Nat) (outputs : List CoinData)
    (mandatory : List (CoinID × CoinDataHeight)) (nobalance : List Denom)
    (unspent : List (CoinID × CoinData)) (isWellFormed : Tx → Bool)
    (sign : Tx → Except Err Tx) (baseFee : Tx → Nat) (fee : Nat) :
    Direction (Except Err Tx) :=
  match buildCandidate covenant covhash outputs mandatory nobalance unspent isWellFormed fee with
  | .error e => .high (.error e)
  | .ok txn =>
    match sign txn with
    | .error e => .low (.error e)
    | .ok signedTxn =>
      if signedTxn.fee ≤ baseFee signedTxn * 21 / 20 then .low (.ok signedTxn)
      else .high (.ok signedTxn)

/-- External dependency binary_search (crate): refine the pair of
bounds until they are adjacent, probing the integer midpoint; returns
the final (largest Low, smallest High) pairs with the payloads of the
last probe on each side. -/
def binarySearch {α : Type} (f : Nat → Direction α) (lo hi : Nat × α) :
    (Nat × α) × (Nat × α) :=
  let mid := (lo.1 + hi.1) / 2
  if mid = lo.1 ∨ mid = hi.1 then (lo, hi)
  else
    match f mid with
    | .low v => binarySearch f (mid, v) hi
    | .high v => binarySearch f lo (mid, v)
termination_by Nat.dist lo.1 hi.1
decreasing_by
  all_goals simp only [Nat.dist]
  all_goals omega

/-- Fuel-based unfolding of binarySearch: structurally recursive, so it
evaluates definitionally on concrete inputs; agrees with binarySearch
once the fuel covers the distance between the bounds. -/
def binarySearchFuel {α : Type} (fuel : Nat) (f : Nat → Direction α) (lo hi : Nat × α) :
    (Nat × α) × (Nat × α) :=
  match fuel with
  | 0 => (lo, hi)
  | fuel + 1 =>
    if (lo.1 + hi.1) / 2 = lo.1 ∨ (lo.1 + hi.1) / 2 = hi.1 then (lo, hi)
    else
      match f ((lo.1 + hi.1) / 2) with
      | .low v => binarySearchFuel fuel f ((lo.1 + hi.1) / 2, v) hi
      | .high v => binarySearchFuel fuel f lo ((lo.1 + hi.1) / 2, v)

/-- The fee upper bound of Wallet::prepare: the summed Mel value of the
unspent coins, replaced by base_fee * 3 + 100 whenever the zero-fee
probe of gen_transaction produces a candidate (Low or High). -/
def prepareMaxFee (st : DB) (covhash : Nat) (covenant : List Nat) (outputs : List CoinData)
    (mandatory : List (CoinID × CoinDataHeight)) (nobalance : List Denom)
    (isWellFormed : Tx → Bool) (sign : Tx → Except Err Tx) (baseFee : Tx → Nat) : Nat :=
  match genTransaction covenant covhash outputs mandatory nobalance
      (getCoinMapping st covhash true false) isWellFormed sign baseFee 0 with
  | .low (.ok t) => baseFee t * 3 + 100
  | .high (.ok t) => baseFee t * 3 + 100
  | _ => ((getCoinMapping st covhash true false).filter
      (fun p => p.2.denom = Denom.mel)).foldl (fun a p => a + p.2.value) 0

/-- Wallet::prepare: push NewCustom onto nobalance, resolve mandatory
inputs, snapshot the unspent coins, derive the fee upper bound from a
zero-fee probe, and run the binary search; the destructuring let of the
source takes the payload of the smallest-High side as the result
(wrapped in the anyhow context: preparation failed). -/
def prepare (st : DB) (covhash : Nat) (covenant : List Nat) (inputs : List CoinID)
    (outputs : List CoinData) (sign : Tx → Except Err Tx) (nobalance0 : List Denom)
    (isWellFormed : Tx → Bool) (baseFee : Tx → Nat) : Except Err Tx :=
  match resolveMandatory st inputs with
  | .error e => .error e
  | .ok mandatory =>
    match (binarySearch
        (genTransaction covenant covhash outputs mandatory (nobalance0 ++ [Denom.newCoin])
          (getCoinMapping st covhash true false) isWellFormed sign baseFee)
        (0, Except.error Err.nothing)
        (prepareMaxFee st covhash covenant outputs mandatory (nobalance0 ++ [Denom.newCoin])
          isWellFormed sign baseFee, Except.error Err.nothing)).2.2 with
    | .ok t => .ok t
    | .error _ => .error .preparationFailed

/-- A concrete two-coin wallet (a 1000-Mel coin and a 7-Sym coin, both
confirmed at height 3, owned by covhash 9) used to evaluate prepare. -/
def c1DB : DB := DB.mk
  [((CoinID.mk 1 0), (CoinData.mk 9 1000 Denom.mel [])),
   ((CoinID.mk 2 0), (CoinData.mk 9 7 Denom.sym []))]
  [((CoinID.mk 1 0), 3), ((CoinID.mk 2 0), 3)] [] [] [] [] []

/-- The transaction prepare returns on c1DB with the Sym coin as a
mandatory input, one 50-Mel output and constant base fee 10. -/
def c1Tx : Tx := Tx.mk TxKind.normal [CoinID.mk 2 0, CoinID.mk 1 0]
  [CoinData.mk 77 50 Denom.mel [], CoinData.mk 9 469 Denom.mel [],
   CoinData.mk 9 470 Denom.mel []] 11 [[]] [] []

/-! ### Secret store (src/secrets.rs) -/

/-- EncryptedSK: the password-encrypted signing-key record.  The
ciphertext type is abstract because the AEAD is an external crate. -/
structure EncryptedSK (CT : Type) where
  argon2idSalt : List Nat
  argon2idMemCost : Nat
  argon2idTimeCost : Nat
  ciphertext : CT
deriving DecidableEq, Repr

/-- EncryptedSK::new: derive a 32-byte key with Argon2id from the
password and a fresh 16-byte salt at mem_cost 32 MiB (32 * 1024 KiB)
and time_cost 10, then aeadSeal the 64-byte signing key with
ChaCha20-Poly1305 under a zero nonce.  kdf abstracts argon2::hash_raw
(password, salt, mem_cost, time_cost) and aeadSeal the AEAD seal_to; the
random salt is passed explicitly. -/
def EncryptedSK.new {Key CT : Type} (kdf : List Nat → List Nat → Nat → Nat → Key)
    (aeadSeal : Key → List Nat → CT) (sk : List Nat) (pwd : List Nat) (salt : List Nat) :
    EncryptedSK CT :=
  { argon2idSalt := salt, argon2idMemCost := 32 * 1024, argon2idTimeCost := 10,
    ciphertext := aeadSeal (kdf pwd salt (32 * 1024) 10) sk }

/-- EncryptedSK::decrypt: re-derive the key with the recorded salt and
cost parameters and open the ciphertext; an AEAD failure is None. -/
def EncryptedSK.decrypt {Key CT : Type} (kdf : List Nat → List Nat → Nat → Nat → Key)
    (aeadOpen : Key → CT → Option (List Nat)) (e : EncryptedSK CT) (pwd : List Nat) :
    Option (List Nat) :=
  aeadOpen (kdf pwd e.argon2idSalt e.argon2idMemCost e.argon2idTimeCost) e.ciphertext

/-! ### Claim C8 -/

/-- Claim C8: for every signing key sk and password p, decrypting
EncryptedSK::new(sk, p) with p returns sk, and decrypting it with any
other password returns None.  The cryptographic primitives are
idealized through the three hypotheses: the AEAD opens its own
sealings, refuses every other key, and the KDF is injective in the
password at fixed salt and costs. -/
theorem encryptedSK_roundtrip_and_reject {Key CT : Type}
    (kdf : List Nat → List Nat → Nat → Nat → Key)
    (aeadSeal : Key → List Nat → CT) (aeadOpen : Key → CT → Option (List Nat))
    (hopen : ∀ k m, aeadOpen k (aeadSeal k m) = some m)
    (hreject : ∀ k k2 m, k ≠ k2 → aeadOpen k (aeadSeal k2 m) = none)
    (hkdf : ∀ p q s mc tc, kdf p s mc tc = kdf q s mc tc → p = q)
    (sk pwd salt : List Nat) :
    (EncryptedSK.new kdf aeadSeal sk pwd salt).decrypt kdf aeadOpen pwd = some sk ∧
    ∀ q, q ≠ pwd →
      (EncryptedSK.new kdf aeadSeal sk pwd salt).decrypt kdf aeadOpen q = none := by
  constructor
  · simp [EncryptedSK.new, EncryptedSK.decrypt, hopen]
  · intro q hq
    simp only [EncryptedSK.new, EncryptedSK.decrypt]
    apply hreject
    intro hkeq
    exact hq (hkdf q pwd salt (32 * 1024) 10 hkeq)

/-- Witness for C8: the ideal instantiation (the KDF output is the
password-salt pair, the ciphertext is the key-message pair) satisfies
the three hypotheses, and the theorem applies at a concrete key and
password. -/
theorem encryptedSK_roundtrip_and_reject_witness :
    (@EncryptedSK.new (List Nat × List Nat) ((List Nat × List Nat) × List Nat)
      (fun p s _ _ => (p, s)) (fun k m => (k, m)) [7, 7] [1] [2]).decrypt
      (fun p s _ _ => (p, s)) (fun k c => if c.1 = k then some c.2 else none) [1] =
      some [7, 7] ∧
    ∀ q, q ≠ [1] →
      (@EncryptedSK.new (List Nat × List Nat) ((List Nat × List Nat) × List Nat)
        (fun p s _ _ => (p, s)) (fun k m => (k, m)) [7, 7] [1] [2]).decrypt
        (fun p s _ _ => (p, s)) (fun k c => if c.1 = k then some c.2 else none) q = none :=
  encryptedSK_roundtrip_and_reject (fun p s _ _ => (p, s)) (fun k m => (k, m))
    (fun k c => if c.1 = k then some c.2 else none)
    (by intro k m; simp)
    (by intro k k2 m hne; simp; intro h; exact absurd h.symm hne)
    (by intro p q s mc tc h; exact (Prod.mk.injEq p s q s).mp h |>.1)
    [7, 7] [1] [2]

/-! ### Claim C5 -/

/-- Claim C5: every coinid returned by get_coin_mapping(true, false)
has a row in coin_confirmations and no row in spends at all; in
particular the returned key set is disjoint from the spends key set. -/
theorem getCoinMapping_confirmed_unspent (st : DB) (covhash : Nat) (cid : CoinID)
    (cd : CoinData) (hmem : (cid, cd) ∈ getCoinMapping st covhash true false) :
    (tlookup st.coinConfirmations cid).isSome = true ∧ ∀ row ∈ st.spends, row.1 ≠ cid := by
  unfold getCoinMapping at hmem
  rcases List.mem_map.mp hmem with ⟨row, hrow, heq⟩
  rcases List.mem_filter.mp hrow with ⟨_, hcond⟩
  have hfst : row.1 = cid := by
    have := congrArg Prod.fst heq
    simpa using this
  simp only [Bool.and_eq_true] at hcond
  refine ⟨?_, ?_⟩
  · have := hcond.1.2
    rw [hfst] at this
    simpa [confirmExists] using this
  · intro r hr
    have hall := hcond.2
    rw [hfst] at hall
    simp only [spendClauseOk, if_neg (by simp : ¬ (false = true))] at hall
    have := List.all_eq_true.mp hall r hr
    simpa using this

/-- Witness for C5 at a one-coin database. -/
theorem getCoinMapping_confirmed_unspent_witness :
    ((CoinID.mk 5 0), (CoinData.mk 9 100 Denom.mel [])) ∈
      getCoinMapping
        (DB.mk [((CoinID.mk 5 0), (CoinData.mk 9 100 Denom.mel []))]
          [((CoinID.mk 5 0), 3)] [] [] [] [] []) 9 true false ∧
    (tlookup (DB.mk [((CoinID.mk 5 0), (CoinData.mk 9 100 Denom.mel []))]
        [((CoinID.mk 5 0), 3)] [] [] [] [] []).coinConfirmations (CoinID.mk 5 0)).isSome
        = true ∧
    ∀ row ∈ (DB.mk [((CoinID.mk 5 0), (CoinData.mk 9 100 Denom.mel []))]
        [((CoinID.mk 5 0), 3)] [] [] [] [] []).spends, row.1 ≠ CoinID.mk 5 0 :=
  ⟨by decide, getCoinMapping_confirmed_unspent
    (DB.mk [((CoinID.mk 5 0), (CoinData.mk 9 100 Denom.mel []))]
      [((CoinID.mk 5 0), 3)] [] [] [] [] []) 9 (CoinID.mk 5 0)
    (CoinData.mk 9 100 Denom.mel []) (by decide)⟩

/-! ### Claim C10 -/

/-- Claim C10: commit_sent on a transaction one of whose inputs has no
coin_confirmations row returns an error; the check runs first, inside
the SQL transaction, so nothing is inserted (an error in this model is
a rolled-back transaction, leaving every table unchanged). -/
theorem commitSent_unconfirmed_input_fails (hashNosigs : Tx → Nat) (st : DB) (txn : Tx)
    (timeout : Nat) (input : CoinID) (hin : input ∈ txn.inputs)
    (hunconf : tlookup st.coinConfirmations input = none) :
    ∃ e, commitSent hashNosigs st txn timeout = .error e := by
  unfold commitSent
  cases hf : txn.inputs.find? (fun i => (tlookup st.coinConfirmations i).isNone) with
  | some i => exact ⟨.inputNoLongerInWallet i, rfl⟩
  | none =>
    exfalso
    have hall := List.find?_eq_none.mp hf input hin
    simp [hunconf] at hall

/-- Witness for C10: a transaction spending a coin that is present in
coins and pending_coins but not confirmed is rejected. -/
theorem commitSent_unconfirmed_input_fails_witness :
    (CoinID.mk 4 0) ∈ (Tx.mk TxKind.normal [CoinID.mk 4 0] [] 0 [[]] [] []).inputs ∧
    tlookup (DB.mk [((CoinID.mk 4 0), (CoinData.mk 9 50 Denom.mel []))] []
      [((CoinID.mk 4 0), 4)] [] [(4, 1000)] [] []).coinConfirmations (CoinID.mk 4 0)
      = none ∧
    ∃ e, commitSent (fun _ => 77)
      (DB.mk [((CoinID.mk 4 0), (CoinData.mk 9 50 Denom.mel []))] []
        [((CoinID.mk 4 0), 4)] [] [(4, 1000)] [] [])
      (Tx.mk TxKind.normal [CoinID.mk 4 0] [] 0 [[]] [] []) 2000 = .error e :=
  ⟨by decide, by decide,
    commitSent_unconfirmed_input_fails (fun _ => 77) _ _ 2000 (CoinID.mk 4 0)
      (by decide) (by decide)⟩

/-! ### Claims C3 and C7 -/

theorem tableInsert_preserves_some {κ α : Type} [DecidableEq κ] {m m2 : List (κ × α)}
    {k k2 : κ} {v w : α} (h : tableInsert m k v = .ok m2) (h2 : tlookup m k2 = some w) :
    tlookup m2 k2 = some w := by
  unfold tableInsert at h
  cases hl : tlookup m k with
  | some u => simp [hl] at h
  | none =>
    simp [hl] at h
    subst h
    exact tlookup_append_left _ h2

theorem outputsFold_props (hashNosigs : Tx → Nat) (txn : Tx) :
    ∀ (l : List (Nat × CoinData)) (c0 : List (CoinID × CoinData)) (p0 : List (CoinID × Nat))
      (res : List (CoinID × CoinData) × List (CoinID × Nat)),
      l.foldlM (outputStep hashNosigs txn) (c0, p0) = .ok res →
      ((∀ ip ∈ l, tlookup res.2 (Tx.outputCoinid hashNosigs txn ip.1) = some (hashNosigs txn)
          ∧ (tlookup res.1 (Tx.outputCoinid hashNosigs txn ip.1)).isSome) ∧
        (∀ k v, tlookup p0 k = some v → tlookup res.2 k = some v) ∧
        (∀ k, (tlookup c0 k).isSome → (tlookup res.1 k).isSome)) := by
  intro l
  induction l with
  | nil =>
    intro c0 p0 res h
    simp only [List.foldlM, pure, Except.pure, Except.ok.injEq] at h
    refine ⟨by simp, ?_, ?_⟩
    · intro k v hv
      rw [← h]
      exact hv
    · intro k hv
      rw [← h]
      exact hv
  | cons hd tl ih =>
    intro c0 p0 res h
    rw [List.foldlM_cons] at h
    cases hstep : outputStep hashNosigs txn (c0, p0) hd with
    | error e =>
      rw [hstep] at h
      simp only [bind, Except.bind] at h
      exact Except.noConfusion h
    | ok acc1 =>
      rw [hstep] at h
      simp only [bind, Except.bind] at h
      obtain ⟨acc1c, acc1p⟩ := acc1
      have ihres := ih acc1c acc1p res h
      unfold outputStep at hstep
      cases hins : tableInsert p0 (Tx.outputCoinid hashNosigs txn hd.1) (hashNosigs txn) with
      | error e => simp [hins] at hstep
      | ok pc2 =>
        simp [hins] at hstep
        obtain ⟨hc, hp⟩ := hstep
        refine ⟨?_, ?_, ?_⟩
        · intro ip hip
          rcases List.mem_cons.mp hip with hip | hip
          · subst hip
            constructor
            · exact ihres.2.1 _ _ (by rw [← hp]; exact tableInsert_ok hins)
            · exact ihres.2.2 _ (by rw [← hc]; exact tableInsertIgnore_isSome _ _ _)
          · exact ihres.1 ip hip
        · intro k v hv
          exact ihres.2.1 k v (by rw [← hp]; exact tableInsert_preserves_some hins hv)
        · intro k hv
          exact ihres.2.2 k (by rw [← hc]; exact tableInsertIgnore_isSome_mono _ _ _ _ hv)

theorem commitSent_ok_parts (hashNosigs : Tx → Nat) (st : DB) (txn : Tx) (timeout : Nat)
    (st2 : DB) (h : commitSent hashNosigs st txn timeout = .ok st2) :
    ∃ spends2 cp pending2,
      spendsInsert st.spends txn.inputs (hashNosigs txn) = .ok spends2 ∧
      (if txn.kind = TxKind.normal then outputsInsert hashNosigs st.coins st.pendingCoins txn
        else .ok (st.coins, st.pendingCoins)) = .ok cp ∧
      tableInsert st.pending (hashNosigs txn) timeout = .ok pending2 ∧
      st2 = { st with
              transactions := tableInsertIgnore st.transactions (hashNosigs txn) txn,
              spends := spends2, coins := cp.1, pendingCoins := cp.2,
              pending := pending2 } := by
  unfold commitSent at h
  cases hf : txn.inputs.find? (fun i => (tlookup st.coinConfirmations i).isNone) with
  | some i =>
    simp only [hf] at h
    exact Except.noConfusion h
  | none =>
    simp only [hf] at h
    cases hs : spendsInsert st.spends txn.inputs (hashNosigs txn) with
    | error e =>
      simp only [hs] at h
      exact Except.noConfusion h
    | ok spends2 =>
      simp only [hs] at h
      cases hc : (if txn.kind = TxKind.normal then
          outputsInsert hashNosigs st.coins st.pendingCoins txn
        else .ok (st.coins, st.pendingCoins)) with
      | error e =>
        simp only [hc] at h
        exact Except.noConfusion h
      | ok cp =>
        simp only [hc] at h
        cases hp : tableInsert st.pending (hashNosigs txn) timeout with
        | error e =>
          simp only [hp] at h
          exact Except.noConfusion h
        | ok pending2 =>
          simp only [hp, Except.ok.injEq] at h
          exact ⟨spends2, cp, pending2, rfl, rfl, rfl, h.symm⟩

/-- Decidable equality on Except results, used to evaluate the model at
concrete inputs. -/
instance exceptDecEq {e a : Type} [DecidableEq e] [DecidableEq a] : DecidableEq (Except e a)
  | .ok x, .ok y =>
    if h : x = y then .isTrue (by rw [h]) else .isFalse (fun hh => h (Except.ok.inj hh))
  | .ok _, .error _ => .isFalse (fun hh => Except.noConfusion hh)
  | .error _, .ok _ => .isFalse (fun hh => Except.noConfusion hh)
  | .error x, .error y =>
    if h : x = y then .isTrue (by rw [h]) else .isFalse (fun hh => h (Except.error.inj hh))

/-- Claim C3: immediately after a successful commit_sent(t, e), the
hash of t is a key of pending (mapped to e); when t.kind is Normal
every output coinid (hash, i) of t is in pending_coins and in coins;
when t.kind is not Normal, commit_sent leaves coins and pending_coins
exactly as they were. -/
theorem commitSent_pending_and_outputs (hashNosigs : Tx → Nat) (st : DB) (txn : Tx)
    (timeout : Nat) (st2 : DB) (h : commitSent hashNosigs st txn timeout = .ok st2) :
    tlookup st2.pending (hashNosigs txn) = some timeout ∧
    (txn.kind = TxKind.normal →
      ∀ ip ∈ txn.outputs.enum,
        tlookup st2.pendingCoins (Tx.outputCoinid hashNosigs txn ip.1) = some (hashNosigs txn) ∧
        (tlookup st2.coins (Tx.outputCoinid hashNosigs txn ip.1)).isSome) ∧
    (txn.kind ≠ TxKind.normal → st2.coins = st.coins ∧ st2.pendingCoins = st.pendingCoins) := by
  obtain ⟨spends2, cp, pending2, hs, hc, hp, hst⟩ := commitSent_ok_parts _ _ _ _ _ h
  subst hst
  refine ⟨tableInsert_ok hp, ?_, ?_⟩
  · intro hk ip hip
    rw [if_pos hk] at hc
    unfold outputsInsert at hc
    have hprops := outputsFold_props hashNosigs txn txn.outputs.enum st.coins st.pendingCoins cp hc
    exact hprops.1 ip hip
  · intro hk
    rw [if_neg hk] at hc
    simp only [Except.ok.injEq] at hc
    rw [← hc]
    exact ⟨rfl, rfl⟩

/-- Witness for C3 at a concrete one-input one-output Normal
transaction. -/
theorem commitSent_pending_and_outputs_witness :
    tlookup (DB.mk
      [((CoinID.mk 1 0), (CoinData.mk 9 5 Denom.mel [])),
       ((CoinID.mk 42 0), (CoinData.mk 9 5 Denom.mel []))]
      [((CoinID.mk 1 0), 3)] [((CoinID.mk 42 0), 42)] [((CoinID.mk 1 0), 42)]
      [(42, 100)]
      [(42, Tx.mk TxKind.normal [CoinID.mk 1 0] [CoinData.mk 9 5 Denom.mel []] 0 [[]] [] [])]
      []).pending
      ((fun (_ : Tx) => 42) (Tx.mk TxKind.normal [CoinID.mk 1 0]
        [CoinData.mk 9 5 Denom.mel []] 0 [[]] [] [])) = some 100 ∧
    ((Tx.mk TxKind.normal [CoinID.mk 1 0] [CoinData.mk 9 5 Denom.mel []] 0 [[]] [] []).kind
        = TxKind.normal →
      ∀ ip ∈ (Tx.mk TxKind.normal [CoinID.mk 1 0]
          [CoinData.mk 9 5 Denom.mel []] 0 [[]] [] []).outputs.enum,
        tlookup (DB.mk
          [((CoinID.mk 1 0), (CoinData.mk 9 5 Denom.mel [])),
           ((CoinID.mk 42 0), (CoinData.mk 9 5 Denom.mel []))]
          [((CoinID.mk 1 0), 3)] [((CoinID.mk 42 0), 42)] [((CoinID.mk 1 0), 42)]
          [(42, 100)]
          [(42, Tx.mk TxKind.normal [CoinID.mk 1 0]
            [CoinData.mk 9 5 Denom.mel []] 0 [[]] [] [])]
          []).pendingCoins
          (Tx.outputCoinid (fun _ => 42) (Tx.mk TxKind.normal [CoinID.mk 1 0]
            [CoinData.mk 9 5 Denom.mel []] 0 [[]] [] []) ip.1) = some 42 ∧
        (tlookup (DB.mk
          [((CoinID.mk 1 0), (CoinData.mk 9 5 Denom.mel [])),
           ((CoinID.mk 42 0), (CoinData.mk 9 5 Denom.mel []))]
          [((CoinID.mk 1 0), 3)] [((CoinID.mk 42 0), 42)] [((CoinID.mk 1 0), 42)]
          [(42, 100)]
          [(42, Tx.mk TxKind.normal [CoinID.mk 1 0]
            [CoinData.mk 9 5 Denom.mel []] 0 [[]] [] [])]
          []).coins
          (Tx.outputCoinid (fun _ => 42) (Tx.mk TxKind.normal [CoinID.mk 1 0]
            [CoinData.mk 9 5 Denom.mel []] 0 [[]] [] []) ip.1)).isSome) ∧
    ((Tx.mk TxKind.normal [CoinID.mk 1 0] [CoinData.mk 9 5 Denom.mel []] 0 [[]] [] []).kind
        ≠ TxKind.normal → True) :=
  have hmain := commitSent_pending_and_outputs (fun _ => 42)
    (DB.mk [((CoinID.mk 1 0), (CoinData.mk 9 5 Denom.mel []))] [((CoinID.mk 1 0), 3)]
      [] [] [] [] [])
    (Tx.mk TxKind.normal [CoinID.mk 1 0] [CoinData.mk 9 5 Denom.mel []] 0 [[]] [] []) 100
    (DB.mk
      [((CoinID.mk 1 0), (CoinData.mk 9 5 Denom.mel [])),
       ((CoinID.mk 42 0), (CoinData.mk 9 5 Denom.mel []))]
      [((CoinID.mk 1 0), 3)] [((CoinID.mk 42 0), 42)] [((CoinID.mk 1 0), 42)]
      [(42, 100)]
      [(42, Tx.mk TxKind.normal [CoinID.mk 1 0] [CoinData.mk 9 5 Denom.mel []] 0 [[]] [] [])]
      [])
    (by decide)
  ⟨hmain.1, hmain.2.1, fun _ => trivial⟩

/-- Claim C7 (amended): after a successful commit_sent(t, e), running
commit_sent(t, e) again always fails (the plain INSERTs into spends,
pending_coins and pending hit primary-key conflicts), and by rollback
the database is left in the state after the first call. -/
theorem commitSent_second_call_fails (hashNosigs : Tx → Nat) (st st2 : DB) (txn : Tx)
    (timeout : Nat) (h : commitSent hashNosigs st txn timeout = .ok st2) :
    ∃ e, commitSent hashNosigs st2 txn timeout = .error e := by
  obtain ⟨spends2, cp, pending2, hs, hc, hp, hst⟩ := commitSent_ok_parts _ _ _ _ _ h
  have hpend : tlookup st2.pending (hashNosigs txn) = some timeout := by
    rw [hst]
    exact tableInsert_ok hp
  unfold commitSent
  cases hf : txn.inputs.find? (fun i => (tlookup st2.coinConfirmations i).isNone) with
  | some i => exact ⟨.inputNoLongerInWallet i, rfl⟩
  | none =>
    cases hs2 : spendsInsert st2.spends txn.inputs (hashNosigs txn) with
    | error e => exact ⟨e, by simp [hs2]⟩
    | ok spends3 =>
      cases hc2 : (if txn.kind = TxKind.normal then
          outputsInsert hashNosigs st2.coins st2.pendingCoins txn
        else .ok (st2.coins, st2.pendingCoins)) with
      | error e => exact ⟨e, by simp [hs2, hc2]⟩
      | ok cp2 =>
        refine ⟨.duplicateKey, ?_⟩
        simp [hs2, hc2, tableInsert_error_of_some timeout hpend]

/-- Counterexample for C7 as stated: a transaction for which the first
commit_sent succeeds while the second returns a primary-key-conflict
error rather than succeeding. -/
theorem commitSent_twice_counterexample :
    commitSent (fun _ => 42)
      (DB.mk [((CoinID.mk 1 0), (CoinData.mk 9 5 Denom.mel []))] [((CoinID.mk 1 0), 3)]
        [] [] [] [] [])
      (Tx.mk TxKind.normal [CoinID.mk 1 0] [CoinData.mk 9 5 Denom.mel []] 0 [[]] [] [])
      100 = .ok (DB.mk
        [((CoinID.mk 1 0), (CoinData.mk 9 5 Denom.mel [])),
         ((CoinID.mk 42 0), (CoinData.mk 9 5 Denom.mel []))]
        [((CoinID.mk 1 0), 3)] [((CoinID.mk 42 0), 42)] [((CoinID.mk 1 0), 42)]
        [(42, 100)]
        [(42, Tx.mk TxKind.normal [CoinID.mk 1 0] [CoinData.mk 9 5 Denom.mel []] 0 [[]] [] [])]
        []) ∧
    commitSent (fun _ => 42)
      (DB.mk
        [((CoinID.mk 1 0), (CoinData.mk 9 5 Denom.mel [])),
         ((CoinID.mk 42 0), (CoinData.mk 9 5 Denom.mel []))]
        [((CoinID.mk 1 0), 3)] [((CoinID.mk 42 0), 42)] [((CoinID.mk 1 0), 42)]
        [(42, 100)]
        [(42, Tx.mk TxKind.normal [CoinID.mk 1 0] [CoinData.mk 9 5 Denom.mel []] 0 [[]] [] [])]
        [])
      (Tx.mk TxKind.normal [CoinID.mk 1 0] [CoinData.mk 9 5 Denom.mel []] 0 [[]] [] [])
      100 = .error Err.duplicateKey := by
  constructor
  · decide
  · decide

/-- Witness for the amended C7 theorem at the same concrete input. -/
theorem commitSent_second_call_fails_witness :
    ∃ e, commitSent (fun _ => 42)
      (DB.mk
        [((CoinID.mk 1 0), (CoinData.mk 9 5 Denom.mel [])),
         ((CoinID.mk 42 0), (CoinData.mk 9 5 Denom.mel []))]
        [((CoinID.mk 1 0), 3)] [((CoinID.mk 42 0), 42)] [((CoinID.mk 1 0), 42)]
        [(42, 100)]
        [(42, Tx.mk TxKind.normal [CoinID.mk 1 0] [CoinData.mk 9 5 Denom.mel []] 0 [[]] [] [])]
        [])
      (Tx.mk TxKind.normal [CoinID.mk 1 0] [CoinData.mk 9 5 Denom.mel []] 0 [[]] [] [])
      100 = .error e :=
  commitSent_second_call_fails (fun _ => 42)
    (DB.mk [((CoinID.mk 1 0), (CoinData.mk 9 5 Denom.mel []))] [((CoinID.mk 1 0), 3)]
      [] [] [] [] [])
    (DB.mk
      [((CoinID.mk 1 0), (CoinData.mk 9 5 Denom.mel [])),
       ((CoinID.mk 42 0), (CoinData.mk 9 5 Denom.mel []))]
      [((CoinID.mk 1 0), 3)] [((CoinID.mk 42 0), 42)] [((CoinID.mk 1 0), 42)]
      [(42, 100)]
      [(42, Tx.mk TxKind.normal [CoinID.mk 1 0] [CoinData.mk 9 5 Denom.mel []] 0 [[]] [] [])]
      [])
    (Tx.mk TxKind.normal [CoinID.mk 1 0] [CoinData.mk 9 5 Denom.mel []] 0 [[]] [] [])
    100 (by decide)

/-! ### Claims C2 and C4 -/

theorem mem_of_tlookup {κ α : Type} [DecidableEq κ] {m : List (κ × α)} {k : κ} {v : α}
    (h : tlookup m k = some v) : (k, v) ∈ m := by
  induction m with
  | nil => simp [tlookup] at h
  | cons hd tl ih =>
    obtain ⟨k0, v0⟩ := hd
    by_cases hk : k0 = k
    · subst hk
      simp [tlookup] at h
      simp [h]
    · simp [tlookup, hk] at h
      exact List.mem_cons_of_mem _ (ih h)

theorem tlookup_unique {κ α : Type} [DecidableEq κ] {m : List (κ × α)} {k : κ} {v : α}
    (hnodup : (m.map Prod.fst).Nodup) (h : tlookup m k = some v) :
    ∀ row ∈ m, row.1 = k → row = (k, v) := by
  induction m with
  | nil => simp
  | cons hd tl ih =>
    obtain ⟨k0, v0⟩ := hd
    simp only [List.map_cons, List.nodup_cons] at hnodup
    intro row hrow hkey
    rcases List.mem_cons.mp hrow with hr | hr
    · subst hr
      simp only at hkey
      subst hkey
      simp [tlookup] at h
      simp [h]
    · by_cases hk : k0 = k
      · subst hk
        exfalso
        exact hnodup.1 (by simpa [← hkey] using List.mem_map_of_mem Prod.fst hr)
      · simp [tlookup, hk] at h
        exact ih hnodup.2 h row hr hkey

theorem tupsert_isSome {κ α : Type} [DecidableEq κ] (m : List (κ × α)) (k : κ) (v : α) :
    (tlookup (tupsert m k v) k).isSome := by
  induction m with
  | nil => simp [tupsert, tlookup]
  | cons hd tl ih =>
    obtain ⟨k0, v0⟩ := hd
    by_cases hk : k0 = k
    · simp [tupsert, hk, tlookup]
    · simpa [tupsert, hk, tlookup] using ih

theorem tupsert_isSome_mono {κ α : Type} [DecidableEq κ] :
    ∀ (m : List (κ × α)) (k k2 : κ) (v : α), (tlookup m k2).isSome →
      (tlookup (tupsert m k v) k2).isSome := by
  intro m
  induction m with
  | nil => intro k k2 v h; simp [tlookup] at h
  | cons hd tl ih =>
    intro k k2 v h
    obtain ⟨k0, v0⟩ := hd
    by_cases hk0 : k0 = k
    · subst hk0
      by_cases hk2 : k0 = k2
      · subst hk2
        simp [tupsert, tlookup]
      · simp [tupsert, tlookup, hk2] at h ⊢
        exact h
    · by_cases hk2 : k0 = k2
      · subst hk2
        simp [tupsert, hk0, tlookup]
      · simp [tupsert, hk0, tlookup, hk2] at h ⊢
        exact ih k k2 v h

theorem coinListResolve_fold_covers (st : DB) (env : SyncEnv) :
    ∀ (l : List CoinID) (acc res : List (CoinID × CoinDataHeight)),
      (l.foldlM (fun acc coinid =>
        match getCoinConfirmation st coinid with
        | some cdh => Except.ok (tupsert acc coinid cdh)
        | none =>
          match env.getCoin coinid with
          | some cdh => Except.ok (tupsert acc coinid cdh)
          | none => Except.error Err.selfContradictoryCoinList) acc) = .ok res →
      (∀ c ∈ l, (tlookup res c).isSome) ∧
      (∀ k, (tlookup acc k).isSome → (tlookup res k).isSome) := by
  intro l
  induction l with
  | nil =>
    intro acc res h
    simp only [List.foldlM, pure, Except.pure, Except.ok.injEq] at h
    subst h
    exact ⟨by simp, fun k hk => hk⟩
  | cons hd tl ih =>
    intro acc res h
    rw [List.foldlM_cons] at h
    cases hconf : getCoinConfirmation st hd with
    | some cdh =>
      rw [hconf] at h
      simp only [bind, Except.bind] at h
      have ihres := ih (tupsert acc hd cdh) res h
      refine ⟨?_, ?_⟩
      · intro c hc
        rcases List.mem_cons.mp hc with hc | hc
        · subst hc
          exact ihres.2 c (tupsert_isSome acc c cdh)
        · exact ihres.1 c hc
      · intro k hk
        exact ihres.2 k (tupsert_isSome_mono acc hd k cdh hk)
    | none =>
      rw [hconf] at h
      cases hget : env.getCoin hd with
      | some cdh =>
        rw [hget] at h
        simp only [bind, Except.bind] at h
        have ihres := ih (tupsert acc hd cdh) res h
        refine ⟨?_, ?_⟩
        · intro c hc
          rcases List.mem_cons.mp hc with hc | hc
          · subst hc
            exact ihres.2 c (tupsert_isSome acc c cdh)
          · exact ihres.1 c hc
        · intro k hk
          exact ihres.2 k (tupsert_isSome_mono acc hd k cdh hk)
      | none =>
        rw [hget] at h
        simp only [bind, Except.bind] at h
        exact Except.noConfusion h

theorem coinListResolve_covers (st : DB) (env : SyncEnv) (remote : List CoinID)
    (res : List (CoinID × CoinDataHeight)) (h : coinListResolve st env remote = .ok res) :
    ∀ c ∈ remote, (tlookup res c).isSome := by
  have := coinListResolve_fold_covers st env remote [] res h
  exact this.1

theorem foldlIgnore_isSome_mono {β κ α : Type} [DecidableEq κ] (f : β → κ) (g : β → α) :
    ∀ (l : List β) (m : List (κ × α)) (k : κ), (tlookup m k).isSome →
      (tlookup (l.foldl (fun acc p => tableInsertIgnore acc (f p) (g p)) m) k).isSome := by
  intro l
  induction l with
  | nil => intro m k hk; simpa using hk
  | cons hd tl ih =>
    intro m k hk
    simp only [List.foldl_cons]
    exact ih _ k (tableInsertIgnore_isSome_mono m (f hd) k (g hd) hk)

theorem foldlIgnore_isSome_of_mem {β κ α : Type} [DecidableEq κ] (f : β → κ) (g : β → α) :
    ∀ (l : List β) (m : List (κ × α)) (b : β), b ∈ l →
      (tlookup (l.foldl (fun acc p => tableInsertIgnore acc (f p) (g p)) m) (f b)).isSome := by
  intro l
  induction l with
  | nil => intro m b hb; simp at hb
  | cons hd tl ih =>
    intro m b hb
    simp only [List.foldl_cons]
    rcases List.mem_cons.mp hb with hb | hb
    · subst hb
      exact foldlIgnore_isSome_mono f g tl _ (f b) (tableInsertIgnore_isSome m (f b) (g b))
    · exact ih _ b hb

theorem networkSync_ok_parts (hashNosigs : Tx → Nat) (st : DB) (cov : Nat) (env : SyncEnv)
    (st2 : DB)
    (hnf : ¬((getCoinMapping st cov true false).length = env.remoteCoinCount ∧
      st.pending.length = 0 ∧ env.keepFastPath = true))
    (h : networkSync hashNosigs st cov env = .ok st2) :
    ∃ remoteList coinList newSpenders,
      env.remoteCoinList = some remoteList ∧
      remoteList.length = env.remoteCoinCount ∧
      coinListResolve st env remoteList = .ok coinList ∧
      spenderDiscovery st env (getCoinMapping st cov true false) coinList = .ok newSpenders ∧
      st2 = syncApply hashNosigs st env remoteList coinList newSpenders := by
  unfold networkSync at h
  rw [if_neg hnf] at h
  cases hrl : env.remoteCoinList with
  | none =>
    simp only [hrl] at h
    exact Except.noConfusion h
  | some remoteList =>
    simp only [hrl] at h
    by_cases hlen : remoteList.length ≠ env.remoteCoinCount
    · rw [if_pos hlen] at h
      exact Except.noConfusion h
    · rw [if_neg hlen] at h
      cases hres : coinListResolve st env remoteList with
      | error e =>
        simp only [hres] at h
        exact Except.noConfusion h
      | ok coinList =>
        simp only [hres] at h
        cases hsp : spenderDiscovery st env (getCoinMapping st cov true false) coinList with
        | error e =>
          simp only [hsp] at h
          exact Except.noConfusion h
        | ok newSpenders =>
          simp only [hsp, Except.ok.injEq] at h
          exact ⟨remoteList, coinList, newSpenders, rfl, by omega, hres, hsp, h.symm⟩

/-- Counterexample for C2 as stated: the schema created by
Database::open has no sync_heights table at all, so no network_sync can
establish sync_heights[W.address] = tip; the program keeps no height
watermark. -/
theorem syncHeights_table_absent : r"sync_heights" ∉ databaseOpenTables := by
  decide

/-- Claim C2 (amended): the database keeps no sync_heights watermark
(the table is absent from the schema); what a successful network_sync
that does not take the count-match fast path guarantees instead is
that every coin of the coin list reported by the node for the wallet
is afterwards present in coins and in coin_confirmations. -/
theorem networkSync_no_watermark (hashNosigs : Tx → Nat) (st : DB) (cov : Nat)
    (env : SyncEnv) (st2 : DB) (remoteList : List CoinID)
    (hnf : ¬((getCoinMapping st cov true false).length = env.remoteCoinCount ∧
      st.pending.length = 0 ∧ env.keepFastPath = true))
    (hrl : env.remoteCoinList = some remoteList)
    (h : networkSync hashNosigs st cov env = .ok st2) :
    r"sync_heights" ∉ databaseOpenTables ∧
    ∀ c ∈ remoteList,
      (tlookup st2.coins c).isSome ∧ (tlookup st2.coinConfirmations c).isSome := by
  refine ⟨by decide, ?_⟩
  obtain ⟨rl2, coinList, newSpenders, hrl2, hlen, hres, hspd, hst⟩ :=
    networkSync_ok_parts _ _ _ _ _ hnf h
  rw [hrl] at hrl2
  have hrleq := Option.some.inj hrl2
  subst hrleq
  subst hst
  intro c hc
  have hcov := coinListResolve_covers st env remoteList coinList hres c hc
  cases hcl : tlookup coinList c with
  | none => rw [hcl] at hcov; simp at hcov
  | some cdh =>
    have hmem := mem_of_tlookup hcl
    constructor
    · simpa [syncApply] using
        foldlIgnore_isSome_of_mem Prod.fst (fun p => p.2.coinData) coinList st.coins
          (c, cdh) hmem
    · simpa [syncApply] using
        foldlIgnore_isSome_of_mem Prod.fst (fun p => p.2.height) coinList
          st.coinConfirmations (c, cdh) hmem

/-- Witness for the amended C2 theorem at a concrete sync. -/
theorem networkSync_no_watermark_witness :
    r"sync_heights" ∉ databaseOpenTables ∧
    ∀ c ∈ [CoinID.mk 50 0],
      (tlookup (DB.mk
        [((CoinID.mk 50 0), (CoinData.mk 9 5 Denom.mel []))]
        [((CoinID.mk 50 0), 9)] [] [] [] [] []).coins c).isSome ∧
      (tlookup (DB.mk
        [((CoinID.mk 50 0), (CoinData.mk 9 5 Denom.mel []))]
        [((CoinID.mk 50 0), 9)] [] [] [] [] []).coinConfirmations c).isSome :=
  networkSync_no_watermark (fun _ => 0)
    (DB.mk [] [] [((CoinID.mk 8 0), 42)] [((CoinID.mk 7 0), 42)] [(42, 5)] [] []) 9
    (SyncEnv.mk 10 1 (some [CoinID.mk 50 0])
      (fun _ => some (CoinDataHeight.mk (CoinData.mk 9 5 Denom.mel []) 9))
      (fun _ => none) true)
    (DB.mk [((CoinID.mk 50 0), (CoinData.mk 9 5 Denom.mel []))]
      [((CoinID.mk 50 0), 9)] [] [] [] [] [])
    [CoinID.mk 50 0]
    (by decide) (by decide) (by decide)

/-- Claim C4 (amended): if t sits in pending with expires below tip,
then after the next successful network_sync t is gone from pending and
from pending_coins; its spends rows are all deleted provided no coin of
the remote coin list carries the hash of t (that is, t was not observed
confirmed in the very same sync; when it is, the pending row is deleted
first and the spends cleanup no longer matches it). -/
theorem networkSync_expired_pending_evicted (hashNosigs : Tx → Nat) (st : DB) (cov : Nat)
    (env : SyncEnv) (st2 : DB) (remoteList : List CoinID) (th exp : Nat)
    (hnodup : (st.pending.map Prod.fst).Nodup)
    (hpend : tlookup st.pending th = some exp) (hexp : exp < env.tip)
    (hrl : env.remoteCoinList = some remoteList)
    (h : networkSync hashNosigs st cov env = .ok st2) :
    tlookup st2.pending th = none ∧
    (∀ row ∈ st2.pendingCoins, row.2 ≠ th) ∧
    ((∀ c ∈ remoteList, c.txhash ≠ th) → ∀ row ∈ st2.spends, row.2 ≠ th) := by
  have hne : st.pending.length ≠ 0 := by
    cases hl : st.pending with
    | nil => rw [hl] at hpend; simp [tlookup] at hpend
    | cons a l => simp [hl]
  obtain ⟨rl2, coinList, newSpenders, hrl2, hlen, hres, hspd, hst⟩ :=
    networkSync_ok_parts _ _ _ _ _ (fun hcon => hne hcon.2.1) h
  rw [hrl] at hrl2
  have hrleq := Option.some.inj hrl2
  subst hrleq
  subst hst
  have hpendmem : (th, exp) ∈ st.pending := mem_of_tlookup hpend
  have hkey : ∀ p ∈ (st.pending.filter
      (fun row => !((remoteList.map (fun c => c.txhash)).contains row.1))).filter
      (fun row => !(decide (row.2 < env.tip))), p.1 ≠ th := by
    intro p hp hcontra
    rcases List.mem_filter.mp hp with ⟨hp2, hcond3⟩
    rcases List.mem_filter.mp hp2 with ⟨hporig, _⟩
    have := tlookup_unique hnodup hpend p hporig hcontra
    subst this
    simp at hcond3
    omega
  refine ⟨?_, ?_, ?_⟩
  · simp only [syncApply]
    exact (tlookup_eq_none _ _).mpr hkey
  · intro row hrow
    simp only [syncApply] at hrow
    rcases List.mem_filter.mp hrow with ⟨_, hcond⟩
    intro hcontra
    rw [hcontra] at hcond
    rcases List.any_eq_true.mp hcond with ⟨p, hp, hpth⟩
    exact hkey p hp (by simpa using hpth)
  · intro hconf row hrow
    simp only [syncApply] at hrow
    rcases List.mem_filter.mp hrow with ⟨_, hcond⟩
    intro hcontra
    rw [hcontra] at hcond
    rw [Bool.not_eq_eq_eq_not, Bool.not_true, List.any_eq_false] at hcond
    have hmem2 : (th, exp) ∈ st.pending.filter
        (fun row => !((remoteList.map (fun c => c.txhash)).contains row.1)) := by
      refine List.mem_filter.mpr ⟨hpendmem, ?_⟩
      simp only [Bool.not_eq_eq_eq_not, Bool.not_true, List.contains_eq_any_beq,
        List.any_eq_false]
      intro x hx
      rcases List.mem_map.mp hx with ⟨c, hcmem, hceq⟩
      subst hceq
      simpa using fun hh => hconf c hcmem hh.symm
    have := hcond (th, exp) hmem2
    simp [hexp] at this

/-- Counterexample for C4 as stated: a pending transaction (hash 42,
expires 5) below tip 10 whose output coin appears in the remote coin
list of the same sync.  The sync succeeds, the pending row is deleted,
but the spends row carrying hash 42 survives, because the
confirmed-pending deletion runs before the expired-spends deletion and
removes the pending row the latter matches against. -/
theorem networkSync_expired_spends_counterexample :
    networkSync (fun _ => 0) (DB.mk [] [] [] [((CoinID.mk 7 0), 42)] [(42, 5)] [] []) 9
      (SyncEnv.mk 10 1 (some [CoinID.mk 42 0])
        (fun _ => some (CoinDataHeight.mk (CoinData.mk 9 5 Denom.mel []) 9))
        (fun _ => none) true) =
      .ok (DB.mk [((CoinID.mk 42 0), (CoinData.mk 9 5 Denom.mel []))]
        [((CoinID.mk 42 0), 9)] [] [((CoinID.mk 7 0), 42)] [] [] []) ∧
    tlookup (DB.mk [] [] [] [((CoinID.mk 7 0), 42)] [(42, 5)] [] []).pending 42 = some 5 ∧
    5 < 10 ∧
    ((CoinID.mk 7 0), 42) ∈ (DB.mk [((CoinID.mk 42 0), (CoinData.mk 9 5 Denom.mel []))]
        [((CoinID.mk 42 0), 9)] [] [((CoinID.mk 7 0), 42)] [] [] []).spends :=
  ⟨by decide, by decide, by decide, by decide⟩

/-- Witness for the amended C4 theorem at a concrete sync in which the
expired transaction is not confirmed. -/
theorem networkSync_expired_pending_evicted_witness :
    tlookup (DB.mk [((CoinID.mk 50 0), (CoinData.mk 9 5 Denom.mel []))]
      [((CoinID.mk 50 0), 9)] [] [] [] [] []).pending 42 = none ∧
    (∀ row ∈ (DB.mk [((CoinID.mk 50 0), (CoinData.mk 9 5 Denom.mel []))]
      [((CoinID.mk 50 0), 9)] [] [] [] [] []).pendingCoins, row.2 ≠ 42) ∧
    ((∀ c ∈ [CoinID.mk 50 0], c.txhash ≠ 42) →
      ∀ row ∈ (DB.mk [((CoinID.mk 50 0), (CoinData.mk 9 5 Denom.mel []))]
        [((CoinID.mk 50 0), 9)] [] [] [] [] []).spends, row.2 ≠ 42) :=
  networkSync_expired_pending_evicted (fun _ => 0)
    (DB.mk [] [] [((CoinID.mk 8 0), 42)] [((CoinID.mk 7 0), 42)] [(42, 5)] [] []) 9
    (SyncEnv.mk 10 1 (some [CoinID.mk 50 0])
      (fun _ => some (CoinDataHeight.mk (CoinData.mk 9 5 Denom.mel []) 9))
      (fun _ => none) true)
    (DB.mk [((CoinID.mk 50 0), (CoinData.mk 9 5 Denom.mel []))]
      [((CoinID.mk 50 0), 9)] [] [] [] [] [])
    [CoinID.mk 50 0] 42 5
    (by decide) (by decide) (by decide) (by decide) (by decide)

/-! ### Claim C9 -/

theorem mem_tupsert {κ α : Type} [DecidableEq κ] :
    ∀ {m : List (κ × α)} {k : κ} {v : α} {e : κ × α},
      e ∈ tupsert m k v → e ∈ m ∨ e = (k, v) := by
  intro m
  induction m with
  | nil =>
    intro k v e he
    simp [tupsert] at he
    exact Or.inr he
  | cons hd tl ih =>
    intro k v e he
    obtain ⟨k0, v0⟩ := hd
    by_cases hk : k0 = k
    · simp [tupsert, hk] at he
      rcases he with he | he
      · exact Or.inr (by simp [he])
      · exact Or.inl (List.mem_cons_of_mem _ he)
    · simp only [tupsert, if_neg hk] at he
      rcases List.mem_cons.mp he with he | he
      · exact Or.inl (by simp [he])
      · rcases ih he with he | he
        · exact Or.inl (List.mem_cons_of_mem _ he)
        · exact Or.inr he

theorem tupsert_keys_nodup {κ α : Type} [DecidableEq κ] :
    ∀ {m : List (κ × α)} (k : κ) (v : α), (m.map Prod.fst).Nodup →
      ((tupsert m k v).map Prod.fst).Nodup := by
  intro m
  induction m with
  | nil => intro k v _; simp [tupsert]
  | cons hd tl ih =>
    intro k v h
    obtain ⟨k0, v0⟩ := hd
    simp only [List.map_cons, List.nodup_cons] at h
    by_cases hk : k0 = k
    · subst hk
      simpa [tupsert] using h
    · simp only [tupsert, if_neg hk, List.map_cons, List.nodup_cons]
      constructor
      · intro hcon
        rcases List.mem_map.mp hcon with ⟨e, he, hke⟩
        rcases mem_tupsert he with he | he
        · exact h.1 (by rw [← hke]; exact List.mem_map_of_mem Prod.fst he)
        · rw [he] at hke
          exact hk hke.symm
      · exact ih k v h.2

theorem historyStep_mem (pr : Nat → CoinID) (acc : List (Nat × Option Nat))
    (p : CoinID × Option Nat) (e : Nat × Option Nat) (he : e ∈ historyStep pr acc p) :
    e ∈ acc ∨ (e = (p.1.txhash, p.2) ∧ ¬∃ hh, p.2 = some hh ∧ p.1 = pr hh) := by
  unfold historyStep at he
  split at he
  case h_1 hh heq =>
    split at he
    · exact Or.inl he
    · case isFalse hpr =>
      rcases mem_tupsert he with h2 | h2
      · exact Or.inl h2
      · refine Or.inr ⟨by rw [h2, heq], ?_⟩
        intro ⟨hh2, hs, hc⟩
        rw [heq] at hs
        exact hpr (by rwa [← Option.some.inj hs] at hc)
  case h_2 heq =>
    rcases mem_tupsert he with h2 | h2
    · exact Or.inl h2
    · refine Or.inr ⟨by rw [h2, heq], ?_⟩
      intro ⟨hh2, hs, hc⟩
      rw [heq] at hs
      exact Option.noConfusion hs

theorem historyStep_nodup (pr : Nat → CoinID) (acc : List (Nat × Option Nat))
    (p : CoinID × Option Nat) (h : (acc.map Prod.fst).Nodup) :
    ((historyStep pr acc p).map Prod.fst).Nodup := by
  unfold historyStep
  split
  · split
    · exact h
    · exact tupsert_keys_nodup _ _ h
  · exact tupsert_keys_nodup _ _ h

theorem historyFold_mem (pr : Nat → CoinID) :
    ∀ (l : List (CoinID × Option Nat)) (acc : List (Nat × Option Nat))
      (e : Nat × Option Nat), e ∈ l.foldl (historyStep pr) acc →
      e ∈ acc ∨ ∃ p ∈ l, e = (p.1.txhash, p.2) ∧ ¬∃ hh, p.2 = some hh ∧ p.1 = pr hh := by
  intro l
  induction l with
  | nil =>
    intro acc e he
    exact Or.inl (by simpa using he)
  | cons hd tl ih =>
    intro acc e he
    rw [List.foldl_cons] at he
    rcases ih _ e he with hacc | ⟨p, hp, hep⟩
    · rcases historyStep_mem pr acc hd e hacc with h2 | h2
      · exact Or.inl h2
      · exact Or.inr ⟨hd, List.mem_cons_self _ _, h2⟩
    · exact Or.inr ⟨p, List.mem_cons_of_mem _ hp, hep⟩

theorem historyFold_nodup (pr : Nat → CoinID) :
    ∀ (l : List (CoinID × Option Nat)) (acc : List (Nat × Option Nat)),
      (acc.map Prod.fst).Nodup →
      ((l.foldl (historyStep pr) acc).map Prod.fst).Nodup := by
  intro l
  induction l with
  | nil => intro acc h; simpa using h
  | cons hd tl ih =>
    intro acc h
    rw [List.foldl_cons]
    exact ih _ (historyStep_nodup pr acc hd h)

/-- Claim C9 (amended): get_transaction_history returns at most one
entry per distinct txhash (its keys are pairwise distinct); every entry
originates from a coin row of the wallet left-joined against
coin_confirmations, with the proposer-reward coinid of each confirmed
height excluded; and the list is sorted by the derived Ord of rust
Option, which places the None-height (unconfirmed) entries FIRST, not
last. -/
theorem getTransactionHistory_props (pr : Nat → CoinID) (st : DB) (cov : Nat) :
    ((getTransactionHistory pr st cov).map Prod.fst).Nodup ∧
    List.Sorted histLe (getTransactionHistory pr st cov) ∧
    ∀ e ∈ getTransactionHistory pr st cov,
      ∃ cid cd, (cid, cd) ∈ st.coins ∧ cd.covhash = cov ∧ cid.txhash = e.1 ∧
        e.2 = tlookup st.coinConfirmations cid ∧ ¬∃ hh, e.2 = some hh ∧ cid = pr hh := by
  unfold getTransactionHistory
  refine ⟨?_, ?_, ?_⟩
  · have hperm := List.perm_insertionSort histLe
      (((st.coins.filter (fun row => row.2.covhash == cov)).map
        (fun row => (row.1, tlookup st.coinConfirmations row.1))).foldl
        (historyStep pr) [])
    refine ((hperm.map Prod.fst).nodup_iff).mpr ?_
    exact historyFold_nodup pr _ [] (by simp)
  · exact List.sorted_insertionSort histLe _
  · intro e he
    have hperm := List.perm_insertionSort histLe
      (((st.coins.filter (fun row => row.2.covhash == cov)).map
        (fun row => (row.1, tlookup st.coinConfirmations row.1))).foldl
        (historyStep pr) [])
    have he2 := hperm.mem_iff.mp he
    rcases historyFold_mem pr _ [] e he2 with hacc | ⟨p, hp, hep, hnopr⟩
    · simp at hacc
    · rcases List.mem_map.mp hp with ⟨row, hrow, hrowp⟩
      rcases List.mem_filter.mp hrow with ⟨hrowmem, hrowcov⟩
      refine ⟨row.1, row.2, by simpa using hrowmem, by simpa using hrowcov, ?_, ?_, ?_⟩
      · rw [hep, ← hrowp]
      · rw [hep, ← hrowp]
      · rw [hep, ← hrowp]
        intro ⟨hh3, hs, hc⟩
        rw [← hrowp] at hnopr
        exact hnopr ⟨hh3, hs, hc⟩

/-- Counterexample for the sort clause of C9 as stated: with one
unconfirmed and one confirmed coin, the history is not sorted in the
order claimed (ascending heights with the None entries last): rust
Option Ord places None first. -/
theorem getTransactionHistory_counterexample :
    ¬ List.Sorted (fun a b => claimHeightLe a.2 b.2 = true)
      (getTransactionHistory (fun _ => CoinID.mk 999 0)
        (DB.mk [((CoinID.mk 100 0), (CoinData.mk 9 1 Denom.mel [])),
                ((CoinID.mk 200 0), (CoinData.mk 9 1 Denom.mel []))]
          [((CoinID.mk 200 0), 5)] [] [] [] [] []) 9) := by
  intro hsort
  have h12 := List.rel_of_sorted_cons hsort
  have : getTransactionHistory (fun _ => CoinID.mk 999 0)
      (DB.mk [((CoinID.mk 100 0), (CoinData.mk 9 1 Denom.mel [])),
              ((CoinID.mk 200 0), (CoinData.mk 9 1 Denom.mel []))]
        [((CoinID.mk 200 0), 5)] [] [] [] [] []) 9 =
      [(100, none), (200, some 5)] := by decide
  rw [this] at hsort
  have := List.rel_of_sorted_cons hsort (200, some 5) (by simp)
  simp [claimHeightLe] at this

/-! ### Claim C6 -/

theorem changeStep_ok {covhash : Nat} {inputSum : List (Denom × Nat)} {ch res : List CoinData}
    {p : Denom × Nat} (h : changeStep covhash inputSum ch p = .ok res) :
    p.2 ≤ getD inputSum p.1 ∧ res = ch ++ changeBlock covhash inputSum p := by
  unfold changeStep at h
  split at h
  · exact ⟨by assumption, (Except.ok.inj h).symm⟩
  · exact Except.noConfusion h

theorem changeOutputs_fold (covhash : Nat) (inputSum : List (Denom × Nat)) :
    ∀ (l : List (Denom × Nat)) (ch res : List CoinData),
      l.foldlM (changeStep covhash inputSum) ch = .ok res →
      res = ch ++ (l.map (changeBlock covhash inputSum)).flatten ∧
      ∀ p ∈ l, p.2 ≤ getD inputSum p.1 := by
  intro l
  induction l with
  | nil =>
    intro ch res h
    simp only [List.foldlM, pure, Except.pure, Except.ok.injEq] at h
    exact ⟨by simp [← h], by simp⟩
  | cons hd tl ih =>
    intro ch res h
    rw [List.foldlM_cons] at h
    cases hstep : changeStep covhash inputSum ch hd with
    | error e =>
      rw [hstep] at h
      simp only [bind, Except.bind] at h
      exact Except.noConfusion h
    | ok ch2 =>
      rw [hstep] at h
      simp only [bind, Except.bind] at h
      obtain ⟨hle, hch2⟩ := changeStep_ok hstep
      obtain ⟨hres, hall⟩ := ih ch2 res h
      constructor
      · rw [hres, hch2]
        simp
      · intro p hp
        rcases List.mem_cons.mp hp with hp | hp
        · subst hp
          exact hle
        · exact hall p hp

theorem changeBlock_denom_covhash (covhash : Nat) (inputSum : List (Denom × Nat))
    (p : Denom × Nat) : ∀ c ∈ changeBlock covhash inputSum p,
      c.denom = p.1 ∧ c.covhash = covhash := by
  intro c hc
  simp only [changeBlock] at hc
  split at hc
  · split at hc
    · rcases List.mem_cons.mp hc with hc | hc
      · subst hc
        exact ⟨rfl, rfl⟩
      · simp at hc
        subst hc
        exact ⟨rfl, rfl⟩
    · simp at hc
      subst hc
      exact ⟨rfl, rfl⟩
  · simp at hc

theorem flatten_filter_block (covhash : Nat) (inputSum : List (Denom × Nat)) :
    ∀ (l : List (Denom × Nat)) (d : Denom) (s : Nat), (l.map Prod.fst).Nodup →
      (d, s) ∈ l →
      ((l.map (changeBlock covhash inputSum)).flatten.filter (fun c => c.denom == d)) =
        changeBlock covhash inputSum (d, s) := by
  intro l
  induction l with
  | nil => intro d s _ hmem; simp at hmem
  | cons hd tl ih =>
    intro d s hnodup hmem
    simp only [List.map_cons, List.nodup_cons] at hnodup
    simp only [List.map_cons, List.flatten_cons, List.filter_append]
    rcases List.mem_cons.mp hmem with hmem | hmem
    · subst hmem
      have hhd : (changeBlock covhash inputSum (d, s)).filter (fun c => c.denom == d) =
          changeBlock covhash inputSum (d, s) := by
        apply List.filter_eq_self.mpr
        intro c hc
        have := (changeBlock_denom_covhash covhash inputSum (d, s) c hc).1
        simpa using this
      have htl : ((tl.map (changeBlock covhash inputSum)).flatten.filter
          (fun c => c.denom == d)) = [] := by
        apply List.filter_eq_nil_iff.mpr
        intro c hc
        rcases List.mem_flatten.mp hc with ⟨blk, hblk, hcblk⟩
        rcases List.mem_map.mp hblk with ⟨q, hq, hqblk⟩
        have hcd := (changeBlock_denom_covhash covhash inputSum q c (by rwa [hqblk])).1
        have hqd : q.1 ≠ d := by
          intro hcon
          have hqmem : q.1 ∈ List.map Prod.fst tl := List.mem_map_of_mem Prod.fst hq
          rw [hcon] at hqmem
          exact hnodup.1 hqmem
        simp [hcd, hqd]
      rw [hhd, htl, List.append_nil]
    · have hhd : (changeBlock covhash inputSum hd).filter (fun c => c.denom == d) = [] := by
        apply List.filter_eq_nil_iff.mpr
        intro c hc
        have hcd := (changeBlock_denom_covhash covhash inputSum hd c hc).1
        have hqd : hd.1 ≠ d := by
          intro hcon
          exact hnodup.1 (by rw [hcon]; exact List.mem_map_of_mem Prod.fst hmem)
        simp [hcd, hqd]
      rw [hhd, List.nil_append]
      exact ih d s hnodup.2 hmem

/-- Claim C6: in candidate generation, for each denom d in the balanced
output sum whose input surplus difference is nonnegative, the change
emitted to the wallet address for d is: two halves (floor and
remainder) when difference is at least 2, one output of value 1 when
difference is 1, and, when difference is 0, one zero-valued output
exactly when d is Mel.  The output-sum keys are pairwise distinct
because total_outputs builds a BTreeMap. -/
theorem changeOutputs_per_denom (covhash : Nat) (outputSum inputSum : List (Denom × Nat))
    (change : List CoinData) (d : Denom) (s : Nat)
    (hnodup : (outputSum.map Prod.fst).Nodup) (hmem : (d, s) ∈ outputSum)
    (hok : changeOutputs covhash outputSum inputSum = .ok change) :
    s ≤ getD inputSum d ∧
    (∀ c ∈ change, c.covhash = covhash) ∧
    (2 ≤ getD inputSum d - s →
      change.filter (fun c => c.denom == d) =
        [CoinData.mk covhash ((getD inputSum d - s) / 2) d [],
         CoinData.mk covhash ((getD inputSum d - s) - (getD inputSum d - s) / 2) d []]) ∧
    (getD inputSum d - s = 1 →
      change.filter (fun c => c.denom == d) = [CoinData.mk covhash 1 d []]) ∧
    (getD inputSum d - s = 0 → d = Denom.mel →
      change.filter (fun c => c.denom == d) = [CoinData.mk covhash 0 d []]) ∧
    (getD inputSum d - s = 0 → d ≠ Denom.mel →
      change.filter (fun c => c.denom == d) = []) := by
  unfold changeOutputs at hok
  obtain ⟨hchange, hall⟩ := changeOutputs_fold covhash inputSum outputSum [] change hok
  rw [List.nil_append] at hchange
  have hle : s ≤ getD inputSum d := hall (d, s) hmem
  have hfil : change.filter (fun c => c.denom == d) = changeBlock covhash inputSum (d, s) := by
    rw [hchange]
    exact flatten_filter_block covhash inputSum outputSum d s hnodup hmem
  refine ⟨hle, ?_, ?_, ?_, ?_, ?_⟩
  · intro c hc
    rw [hchange] at hc
    rcases List.mem_flatten.mp hc with ⟨blk, hblk, hcblk⟩
    rcases List.mem_map.mp hblk with ⟨q, hq, hqblk⟩
    exact (changeBlock_denom_covhash covhash inputSum q c (by rwa [hqblk])).2
  · intro hdiff
    rw [hfil]
    simp only [changeBlock]
    rw [if_pos (Or.inl (by omega)), if_pos hdiff]
  · intro hdiff
    rw [hfil]
    simp only [changeBlock]
    rw [if_pos (Or.inl (by omega)), if_neg (by omega), hdiff]
  · intro hdiff hmel
    rw [hfil]
    simp only [changeBlock]
    rw [if_pos (Or.inr hmel), if_neg (by omega), hdiff]
  · intro hdiff hmel
    rw [hfil]
    simp only [changeBlock]
    rw [if_neg ?_]
    intro hcon
    rcases hcon with hcon | hcon
    · omega
    · exact hmel hcon

/-- Witness for C6 at a concrete balanced output sum: the Mel denom has
surplus 7, split into 3 and 4; the Sym denom has surplus 0 and gets no
change. -/
theorem changeOutputs_per_denom_witness :
    10 ≤ getD [(Denom.mel, 17), (Denom.sym, 5)] Denom.mel ∧
    (∀ c ∈ [CoinData.mk 9 3 Denom.mel [], CoinData.mk 9 4 Denom.mel []], c.covhash = 9) ∧
    (2 ≤ getD [(Denom.mel, 17), (Denom.sym, 5)] Denom.mel - 10 →
      ([CoinData.mk 9 3 Denom.mel [], CoinData.mk 9 4 Denom.mel []].filter
        (fun c => c.denom == Denom.mel)) =
        [CoinData.mk 9 ((getD [(Denom.mel, 17), (Denom.sym, 5)] Denom.mel - 10) / 2)
          Denom.mel [],
         CoinData.mk 9 ((getD [(Denom.mel, 17), (Denom.sym, 5)] Denom.mel - 10) -
          (getD [(Denom.mel, 17), (Denom.sym, 5)] Denom.mel - 10) / 2) Denom.mel []]) ∧
    (getD [(Denom.mel, 17), (Denom.sym, 5)] Denom.mel - 10 = 1 →
      ([CoinData.mk 9 3 Denom.mel [], CoinData.mk 9 4 Denom.mel []].filter
        (fun c => c.denom == Denom.mel)) = [CoinData.mk 9 1 Denom.mel []]) ∧
    (getD [(Denom.mel, 17), (Denom.sym, 5)] Denom.mel - 10 = 0 → Denom.mel = Denom.mel →
      ([CoinData.mk 9 3 Denom.mel [], CoinData.mk 9 4 Denom.mel []].filter
        (fun c => c.denom == Denom.mel)) = [CoinData.mk 9 0 Denom.mel []]) ∧
    (getD [(Denom.mel, 17), (Denom.sym, 5)] Denom.mel - 10 = 0 → Denom.mel ≠ Denom.mel →
      ([CoinData.mk 9 3 Denom.mel [], CoinData.mk 9 4 Denom.mel []].filter
        (fun c => c.denom == Denom.mel)) = []) :=
  changeOutputs_per_denom 9 [(Denom.mel, 10), (Denom.sym, 5)]
    [(Denom.mel, 17), (Denom.sym, 5)]
    [CoinData.mk 9 3 Denom.mel [], CoinData.mk 9 4 Denom.mel []] Denom.mel 10
    (by decide) (by decide) (by decide)

/-! ### Claim C1 -/

/-- Sum of the values of the listed coins carrying denom d, the coins
valued through the coins table (get_one_coin). -/
def inputsSumByDenom (dataOf : CoinID → Option CoinData) (l : List CoinID) (d : Denom) :
    Nat :=
  (l.map (fun c =>
    match dataOf c with
    | some cd => if cd.denom = d then cd.value else 0
    | none => 0)).sum

/-- Sum of the values of the outputs carrying denom d. -/
def outputsSumByDenom (l : List CoinData) (d : Denom) : Nat :=
  (l.map (fun o => if o.denom = d then o.value else 0)).sum

theorem inputsSumByDenom_append (dataOf : CoinID → Option CoinData) (l l2 : List CoinID)
    (d : Denom) : inputsSumByDenom dataOf (l ++ l2) d =
      inputsSumByDenom dataOf l d + inputsSumByDenom dataOf l2 d := by
  unfold inputsSumByDenom
  rw [List.map_append, List.sum_append]

theorem outputsSumByDenom_append (l l2 : List CoinData) (d : Denom) :
    outputsSumByDenom (l ++ l2) d = outputsSumByDenom l d + outputsSumByDenom l2 d := by
  unfold outputsSumByDenom
  rw [List.map_append, List.sum_append]

theorem getD_tupsert {m : List (Denom × Nat)} (k d : Denom) (v : Nat) :
    getD (tupsert m k v) d = if d = k then v else getD m d := by
  induction m with
  | nil =>
    by_cases hd : d = k
    · simp [tupsert, getD, tlookup, hd]
    · simp [tupsert, getD, tlookup, hd, Ne.symm hd]
  | cons hd0 tl ih =>
    obtain ⟨k0, v0⟩ := hd0
    by_cases hk : k0 = k
    · subst hk
      by_cases hdk : d = k0
      · subst hdk
        simp [tupsert, getD, tlookup]
      · simp [tupsert, getD, tlookup, hdk, Ne.symm hdk]
    · by_cases hdk : k0 = d
      · subst hdk
        simp [tupsert, hk, getD, tlookup]
      · simp only [tupsert, if_neg hk, getD, tlookup, if_neg hdk]
        exact ih

theorem tlookup_of_mem_nodup {κ α : Type} [DecidableEq κ] {m : List (κ × α)} {p : κ × α}
    (hnodup : (m.map Prod.fst).Nodup) (hp : p ∈ m) : tlookup m p.1 = some p.2 := by
  induction m with
  | nil => simp at hp
  | cons hd tl ih =>
    obtain ⟨k0, v0⟩ := hd
    simp only [List.map_cons, List.nodup_cons] at hnodup
    rcases List.mem_cons.mp hp with hp | hp
    · subst hp
      simp [tlookup]
    · by_cases hk : k0 = p.1
      · exfalso
        exact hnodup.1 (hk ▸ List.mem_map_of_mem Prod.fst hp)
      · simp only [tlookup, if_neg hk]
        exact ih hnodup.2 hp

theorem tlookup_isSome_of_key_mem {κ α : Type} [DecidableEq κ] {m : List (κ × α)} {k : κ}
    (hk : k ∈ m.map Prod.fst) : (tlookup m k).isSome := by
  rcases List.mem_map.mp hk with ⟨p, hp, hpk⟩
  rw [← hpk]
  exact tlookup_isSome_of_mem hp

theorem getD_addEntry (m : List (Denom × Nat)) (k : Denom) (v : Nat) (d : Denom) :
    getD (addEntry m k v) d = getD m d + (if d = k then v else 0) := by
  induction m with
  | nil =>
    by_cases hd : d = k
    · simp [addEntry, getD, tlookup, hd]
    · simp [addEntry, getD, tlookup, hd, Ne.symm hd]
  | cons hd0 tl ih =>
    obtain ⟨k0, v0⟩ := hd0
    by_cases hk : k0 = k
    · subst hk
      by_cases hdk : d = k0
      · subst hdk
        simp [addEntry, getD, tlookup]
      · simp [addEntry, getD, tlookup, hdk, Ne.symm hdk]
    · by_cases hdk : k0 = d
      · subst hdk
        have hne : ¬ k0 = k := hk
        simp [addEntry, hne, getD, tlookup]
      · simp only [addEntry, if_neg hk, getD, tlookup, if_neg hdk]
        exact ih

theorem mem_keys_addEntry (m : List (Denom × Nat)) (k : Denom) (v : Nat) (d : Denom) :
    d ∈ (addEntry m k v).map Prod.fst ↔ d ∈ m.map Prod.fst ∨ d = k := by
  induction m with
  | nil => simp [addEntry]
  | cons hd0 tl ih =>
    obtain ⟨k0, v0⟩ := hd0
    by_cases hk : k0 = k
    · subst hk
      have he : addEntry ((k0, v0) :: tl) k0 v = (k0, v0 + v) :: tl := by
        simp [addEntry]
      rw [he]
      simp only [List.map_cons, List.mem_cons]
      tauto
    · simp only [addEntry, if_neg hk, List.map_cons, List.mem_cons, ih]
      tauto

theorem addEntry_keys_nodup (m : List (Denom × Nat)) (k : Denom) (v : Nat)
    (h : (m.map Prod.fst).Nodup) : ((addEntry m k v).map Prod.fst).Nodup := by
  induction m with
  | nil => simp [addEntry]
  | cons hd0 tl ih =>
    obtain ⟨k0, v0⟩ := hd0
    simp only [List.map_cons, List.nodup_cons] at h
    by_cases hk : k0 = k
    · subst hk
      have he : addEntry ((k0, v0) :: tl) k0 v = (k0, v0 + v) :: tl := by
        simp [addEntry]
      rw [he]
      simp only [List.map_cons, List.nodup_cons]
      exact h
    · simp only [addEntry, if_neg hk, List.map_cons, List.nodup_cons]
      refine ⟨?_, ih h.2⟩
      rw [mem_keys_addEntry]
      intro hcon
      rcases hcon with hcon | hcon
      · exact h.1 hcon
      · exact hk hcon

theorem getD_outputsFold (l : List CoinData) :
    ∀ (m0 : List (Denom × Nat)) (d : Denom),
      getD (l.foldl (fun m o => addEntry m o.denom o.value) m0) d =
        getD m0 d + outputsSumByDenom l d := by
  induction l with
  | nil => intro m0 d; simp [outputsSumByDenom]
  | cons hd tl ih =>
    intro m0 d
    rw [List.foldl_cons, ih, getD_addEntry]
    unfold outputsSumByDenom
    simp only [List.map_cons, List.sum_cons]
    by_cases hdd : d = hd.denom
    · rw [if_pos hdd, if_pos hdd.symm]
      omega
    · rw [if_neg hdd, if_neg (Ne.symm hdd)]
      omega

theorem getD_totalOutputs (t : Tx) (d : Denom) :
    getD (totalOutputs t) d =
      outputsSumByDenom t.outputs d + (if d = Denom.mel then t.fee else 0) := by
  unfold totalOutputs
  rw [getD_addEntry, getD_outputsFold]
  simp [getD, tlookup]

theorem mem_keys_outputsFold (l : List CoinData) :
    ∀ (m0 : List (Denom × Nat)) (d : Denom),
      d ∈ ((l.foldl (fun m o => addEntry m o.denom o.value) m0).map Prod.fst) ↔
        d ∈ m0.map Prod.fst ∨ d ∈ l.map CoinData.denom := by
  induction l with
  | nil => intro m0 d; simp
  | cons hd tl ih =>
    intro m0 d
    rw [List.foldl_cons, ih, mem_keys_addEntry]
    simp only [List.map_cons, List.mem_cons]
    tauto

theorem mem_keys_totalOutputs (t : Tx) (d : Denom) :
    d ∈ (totalOutputs t).map Prod.fst ↔ d ∈ t.outputs.map CoinData.denom ∨ d = Denom.mel := by
  unfold totalOutputs
  rw [mem_keys_addEntry, mem_keys_outputsFold]
  simp

theorem outputsFold_keys_nodup (l : List CoinData) :
    ∀ (m0 : List (Denom × Nat)), (m0.map Prod.fst).Nodup →
      ((l.foldl (fun m o => addEntry m o.denom o.value) m0).map Prod.fst).Nodup := by
  induction l with
  | nil => intro m0 h; simpa using h
  | cons hd tl ih =>
    intro m0 h
    rw [List.foldl_cons]
    exact ih _ (addEntry_keys_nodup m0 hd.denom hd.value h)

theorem totalOutputs_keys_nodup (t : Tx) : ((totalOutputs t).map Prod.fst).Nodup := by
  unfold totalOutputs
  exact addEntry_keys_nodup _ _ _ (outputsFold_keys_nodup t.outputs [] (by simp))

theorem tlookup_filter_key {κ α : Type} [DecidableEq κ] (q : κ → Bool) :
    ∀ (m : List (κ × α)) (k : κ), q k = true →
      tlookup (m.filter (fun p => q p.1)) k = tlookup m k := by
  intro m
  induction m with
  | nil => intro k _; simp
  | cons hd tl ih =>
    intro k hq
    obtain ⟨k0, v0⟩ := hd
    by_cases hk : k0 = k
    · subst hk
      simp [List.filter_cons, hq, tlookup]
    · by_cases hq0 : q k0
      · simp only [List.filter_cons, hq0, tlookup, if_neg hk]
        exact ih k hq
      · simp only [List.filter_cons]
        rw [if_neg (by simp [hq0])]
        simp only [tlookup, if_neg hk]
        exact ih k hq

theorem getD_removeDenoms (m : List (Denom × Nat)) (nb : List Denom) (d : Denom)
    (hd : d ∉ nb) : getD (removeDenoms m nb) d = getD m d := by
  unfold removeDenoms getD
  rw [tlookup_filter_key (fun x => !(nb.contains x)) m d (by simpa using hd)]

theorem mem_keys_removeDenoms (m : List (Denom × Nat)) (nb : List Denom) (d : Denom) :
    d ∈ (removeDenoms m nb).map Prod.fst ↔ d ∈ m.map Prod.fst ∧ d ∉ nb := by
  unfold removeDenoms
  constructor
  · intro h
    rcases List.mem_map.mp h with ⟨p, hp, hpk⟩
    rcases List.mem_filter.mp hp with ⟨hpm, hpq⟩
    subst hpk
    exact ⟨List.mem_map_of_mem Prod.fst hpm, by simpa using hpq⟩
  · intro ⟨h1, h2⟩
    rcases List.mem_map.mp h1 with ⟨p, hp, hpk⟩
    subst hpk
    exact List.mem_map_of_mem Prod.fst
      (List.mem_filter.mpr ⟨hp, by simpa using h2⟩)

theorem removeDenoms_keys_nodup (m : List (Denom × Nat)) (nb : List Denom)
    (h : (m.map Prod.fst).Nodup) : ((removeDenoms m nb).map Prod.fst).Nodup := by
  unfold removeDenoms
  exact ((List.filter_sublist m).map Prod.fst).nodup h

theorem getCoinConfirmation_coinData {st : DB} {c : CoinID} {cdh : CoinDataHeight}
    (h : getCoinConfirmation st c = some cdh) : getOneCoin st c = some cdh.coinData := by
  unfold getCoinConfirmation at h
  cases hg : getOneCoin st c with
  | none =>
    simp only [hg] at h
    exact Option.noConfusion h
  | some cd =>
    simp only [hg] at h
    cases hc : tlookup st.coinConfirmations c with
    | none =>
      simp only [hc] at h
      exact Option.noConfusion h
    | some ht =>
      simp only [hc, Option.some.injEq] at h
      rw [← h]

theorem resolveMandatory_fold_props (st : DB) :
    ∀ (l : List CoinID) (acc res : List (CoinID × CoinDataHeight)),
      (acc.map Prod.fst).Nodup →
      (∀ q ∈ acc, getCoinConfirmation st q.1 = some q.2) →
      l.foldlM (fun acc input =>
        match getCoinConfirmation st input with
        | none => Except.error Err.mandatoryInputNotFound
        | some cdh => Except.ok (tupsert acc input cdh)) acc = .ok res →
      (res.map Prod.fst).Nodup ∧ ∀ q ∈ res, getCoinConfirmation st q.1 = some q.2 := by
  intro l
  induction l with
  | nil =>
    intro acc res hnd hq h
    simp only [List.foldlM, pure, Except.pure, Except.ok.injEq] at h
    subst h
    exact ⟨hnd, hq⟩
  | cons hd tl ih =>
    intro acc res hnd hq h
    rw [List.foldlM_cons] at h
    cases hconf : getCoinConfirmation st hd with
    | none =>
      rw [hconf] at h
      simp only [bind, Except.bind] at h
      exact Except.noConfusion h
    | some cdh =>
      rw [hconf] at h
      simp only [bind, Except.bind] at h
      refine ih _ res (tupsert_keys_nodup hd cdh hnd) ?_ h
      intro q hqm
      rcases mem_tupsert hqm with hqm | hqm
      · exact hq q hqm
      · rw [hqm]
        exact hconf

theorem resolveMandatory_props (st : DB) (inputs : List CoinID)
    (mandatory : List (CoinID × CoinDataHeight))
    (h : resolveMandatory st inputs = .ok mandatory) :
    (mandatory.map Prod.fst).Nodup ∧
    ∀ q ∈ mandatory, getCoinConfirmation st q.1 = some q.2 := by
  unfold resolveMandatory at h
  exact resolveMandatory_fold_props st inputs [] mandatory (by simp) (by simp) h

theorem getD_mandatoryFold (l : List (CoinID × CoinDataHeight)) :
    ∀ (m0 : List (Denom × Nat)) (d : Denom),
      getD (l.foldl (fun m q => tupsert m q.2.coinData.denom
        (getD m q.2.coinData.denom + q.2.coinData.value)) m0) d =
      getD m0 d +
        (l.map (fun q => if q.2.coinData.denom = d then q.2.coinData.value else 0)).sum := by
  induction l with
  | nil => intro m0 d; simp
  | cons hd tl ih =>
    intro m0 d
    rw [List.foldl_cons, ih]
    simp only [List.map_cons, List.sum_cons]
    rw [getD_tupsert]
    by_cases hdd : d = hd.2.coinData.denom
    · subst hdd
      rw [if_pos rfl, if_pos rfl]
      omega
    · rw [if_neg hdd, if_neg (Ne.symm hdd)]
      omega

theorem mandatory_inputsSum (st : DB) (mandatory : List (CoinID × CoinDataHeight))
    (hdata : ∀ q ∈ mandatory, getOneCoin st q.1 = some q.2.coinData) (d : Denom) :
    inputsSumByDenom (getOneCoin st) (mandatory.map Prod.fst) d =
      (mandatory.map (fun q =>
        if q.2.coinData.denom = d then q.2.coinData.value else 0)).sum := by
  unfold inputsSumByDenom
  rw [List.map_map]
  congr 1
  apply List.map_congr_left
  intro q hqm
  simp only [Function.comp_apply, hdata q hqm]

theorem selectStep_inv (st : DB) (mandatory : List (CoinID × CoinDataHeight))
    (nobalance : List Denom) (covhash : Nat) (outputSum : List (Denom × Nat))
    (acc : List CoinID × List (Denom × Nat)) (p : CoinID × CoinData) (d : Denom)
    (hrow : ∃ row, getOneCoin st p.1 = some row ∧ row.value = p.2.value ∧
      row.denom = p.2.denom)
    (hinv : getD acc.2 d = inputsSumByDenom (getOneCoin st) acc.1 d) :
    getD (selectStep mandatory nobalance covhash outputSum acc p).2 d =
      inputsSumByDenom (getOneCoin st)
        (selectStep mandatory nobalance covhash outputSum acc p).1 d := by
  unfold selectStep
  split
  · exact hinv
  · split
    · rcases hrow with ⟨row, hrow1, hrow2, hrow3⟩
      simp only
      rw [getD_tupsert, inputsSumByDenom_append]
      have hsing : inputsSumByDenom (getOneCoin st) [p.1] d =
          (if p.2.denom = d then p.2.value else 0) := by
        unfold inputsSumByDenom
        simp only [List.map_cons, List.map_nil, List.sum_cons, List.sum_nil]
        rw [hrow1]
        show (if row.denom = d then row.value else 0) + 0 =
          if p.2.denom = d then p.2.value else 0
        rw [hrow3, hrow2]
        omega
      rw [hsing]
      by_cases hdd : d = p.2.denom
      · subst hdd
        rw [if_pos rfl, if_pos rfl, hinv]
      · rw [if_neg hdd, if_neg (Ne.symm hdd), hinv]
        omega
    · exact hinv

theorem selectCoins_sum (st : DB) (mandatory : List (CoinID × CoinDataHeight))
    (nobalance : List Denom) (covhash : Nat) (outputSum : List (Denom × Nat)) :
    ∀ (unspent : List (CoinID × CoinData)),
      (∀ p ∈ unspent, ∃ row, getOneCoin st p.1 = some row ∧ row.value = p.2.value ∧
        row.denom = p.2.denom) →
      ∀ (inputs0 : List CoinID) (inputSum0 : List (Denom × Nat)) (d : Denom),
        getD inputSum0 d = inputsSumByDenom (getOneCoin st) inputs0 d →
        getD (selectCoins mandatory nobalance covhash unspent outputSum inputs0 inputSum0).2 d
          = inputsSumByDenom (getOneCoin st)
            (selectCoins mandatory nobalance covhash unspent outputSum inputs0 inputSum0).1 d := by
  intro unspent
  induction unspent with
  | nil =>
    intro _ inputs0 inputSum0 d hbase
    simpa [selectCoins] using hbase
  | cons p tl ih =>
    intro hun inputs0 inputSum0 d hbase
    unfold selectCoins at ih ⊢
    rw [List.foldl_cons]
    have hstep := selectStep_inv st mandatory nobalance covhash outputSum
      (inputs0, inputSum0) p d (hun p (List.mem_cons_self _ _)) hbase
    have := ih (fun q hq => hun q (List.mem_cons_of_mem _ hq))
      (selectStep mandatory nobalance covhash outputSum (inputs0, inputSum0) p).1
      (selectStep mandatory nobalance covhash outputSum (inputs0, inputSum0) p).2 d hstep
    simpa using this

theorem outputsSum_filter (l : List CoinData) (d : Denom) :
    outputsSumByDenom l d = outputsSumByDenom (l.filter (fun c => c.denom == d)) d := by
  induction l with
  | nil => simp [outputsSumByDenom]
  | cons hd tl ih =>
    unfold outputsSumByDenom at ih ⊢
    simp only [List.filter_cons, List.map_cons, List.sum_cons]
    by_cases hdd : hd.denom = d
    · rw [if_pos (show (hd.denom == d) = true from by simpa using hdd)]
      simp only [List.map_cons, List.sum_cons]
      rw [ih]
    · rw [if_neg (show ¬(hd.denom == d) = true from by simpa using hdd), if_neg hdd]
      rw [ih]
      omega

theorem changeBlock_sum (covhash : Nat) (inputSum : List (Denom × Nat)) (d : Denom) (s : Nat)
    (hle : s ≤ getD inputSum d) :
    outputsSumByDenom (changeBlock covhash inputSum (d, s)) d = getD inputSum d - s := by
  simp only [changeBlock]
  split
  · split
    · simp [outputsSumByDenom]
      omega
    · simp [outputsSumByDenom]
  · case isFalse hcond =>
    simp only [outputsSumByDenom, List.map_nil, List.sum_nil]
    have h1 := (not_or.mp hcond).1
    omega

theorem getCoinMapping_data (st : DB) (cov : Nat) (confirmed ignorePending : Bool)
    (hcoins : (st.coins.map Prod.fst).Nodup) :
    ∀ p ∈ getCoinMapping st cov confirmed ignorePending,
      ∃ row, getOneCoin st p.1 = some row ∧ row.value = p.2.value ∧
        row.denom = p.2.denom := by
  intro p hp
  unfold getCoinMapping at hp
  rcases List.mem_map.mp hp with ⟨r, hr, hrp⟩
  rcases List.mem_filter.mp hr with ⟨hrm, _⟩
  refine ⟨r.2, ?_, ?_, ?_⟩
  · unfold getOneCoin
    have := tlookup_of_mem_nodup hcoins hrm
    rw [← hrp]
    exact this
  · rw [← hrp]
  · rw [← hrp]

theorem genTransaction_high_ok (covenant : List Nat) (covhash : Nat)
    (outputs : List CoinData) (mandatory : List (CoinID × CoinDataHeight))
    (nobalance : List Denom) (unspent : List (CoinID × CoinData))
    (isWellFormed : Tx → Bool) (sign : Tx → Except Err Tx) (baseFee : Tx → Nat)
    (fee : Nat) (tx : Tx)
    (h : genTransaction covenant covhash outputs mandatory nobalance unspent isWellFormed
      sign baseFee fee = .high (.ok tx)) :
    ∃ c, buildCandidate covenant covhash outputs mandatory nobalance unspent isWellFormed
        fee = .ok c ∧
      sign c = .ok tx ∧ ¬(tx.fee ≤ baseFee tx * 21 / 20) := by
  unfold genTransaction at h
  cases hb : buildCandidate covenant covhash outputs mandatory nobalance unspent
      isWellFormed fee with
  | error e =>
    simp only [hb] at h
    have := Direction.high.inj h
    exact Except.noConfusion this
  | ok txn =>
    simp only [hb] at h
    cases hs : sign txn with
    | error e =>
      simp only [hs] at h
      exact Direction.noConfusion h
    | ok s =>
      simp only [hs] at h
      by_cases hfee : s.fee ≤ baseFee s * 21 / 20
      · rw [if_pos hfee] at h
        exact Direction.noConfusion h
      · rw [if_neg hfee] at h
        have hst : s = tx := Except.ok.inj (Direction.high.inj h)
        subst hst
        exact ⟨txn, rfl, hs, hfee⟩

theorem binarySearch_high_payload {α : Type} (f : Nat → Direction α) :
    ∀ (n : Nat) (lo hi : Nat × α), Nat.dist lo.1 hi.1 ≤ n →
      (binarySearch f lo hi).2.2 = hi.2 ∨
        ∃ i, f i = .high ((binarySearch f lo hi).2.2) := by
  intro n
  induction n with
  | zero =>
    intro lo hi hd
    have hmid : (lo.1 + hi.1) / 2 = lo.1 ∨ (lo.1 + hi.1) / 2 = hi.1 := by
      simp only [Nat.dist] at hd
      omega
    rw [binarySearch]
    rw [if_pos hmid]
    exact Or.inl rfl
  | succ n ih =>
    intro lo hi hd
    rw [binarySearch]
    by_cases hmid : (lo.1 + hi.1) / 2 = lo.1 ∨ (lo.1 + hi.1) / 2 = hi.1
    · rw [if_pos hmid]
      exact Or.inl rfl
    · rw [if_neg hmid]
      cases hf : f ((lo.1 + hi.1) / 2) with
      | low v =>
        have hrec := ih ((lo.1 + hi.1) / 2, v) hi (by simp only [Nat.dist] at hd ⊢; omega)
        exact hrec
      | high v =>
        have hrec := ih lo ((lo.1 + hi.1) / 2, v) (by simp only [Nat.dist] at hd ⊢; omega)
        rcases hrec with hrec | hrec
        · exact Or.inr ⟨(lo.1 + hi.1) / 2, by rw [hf, hrec]⟩
        · exact Or.inr hrec

theorem buildCandidate_ok_parts (covenant : List Nat) (covhash : Nat)
    (outputs : List CoinData) (mandatory : List (CoinID × CoinDataHeight))
    (nobalance : List Denom) (unspent : List (CoinID × CoinData))
    (isWellFormed : Tx → Bool) (fee : Nat) (c : Tx)
    (h : buildCandidate covenant covhash outputs mandatory nobalance unspent isWellFormed
      fee = .ok c) :
    ∃ change,
      changeOutputs covhash
        (removeDenoms (totalOutputs (Tx.mk TxKind.normal [] outputs fee [covenant] [] []))
          nobalance)
        (selectCoins mandatory nobalance covhash unspent
          (removeDenoms (totalOutputs (Tx.mk TxKind.normal [] outputs fee [covenant] [] []))
            nobalance)
          (mandatory.map (fun q => q.1))
          (removeDenoms (mandatory.foldl (fun m q => tupsert m q.2.coinData.denom
            (getD m q.2.coinData.denom + q.2.coinData.value)) []) nobalance)).2 =
        .ok change ∧
      c = Tx.mk TxKind.normal
        (selectCoins mandatory nobalance covhash unspent
          (removeDenoms (totalOutputs (Tx.mk TxKind.normal [] outputs fee [covenant] [] []))
            nobalance)
          (mandatory.map (fun q => q.1))
          (removeDenoms (mandatory.foldl (fun m q => tupsert m q.2.coinData.denom
            (getD m q.2.coinData.denom + q.2.coinData.value)) []) nobalance)).1
        (outputs ++ change) fee [covenant] [] [] := by
  simp only [buildCandidate] at h
  split at h
  · exact Except.noConfusion h
  · case h_2 change heq =>
    split at h
    · exact Except.noConfusion h
    · split at h
      · exact Except.noConfusion h
      · exact ⟨change, heq, (Except.ok.inj h).symm⟩

theorem buildCandidate_balance (st : DB) (covhash : Nat) (covenant : List Nat)
    (inputs : List CoinID) (outputs : List CoinData) (nobalance : List Denom)
    (isWellFormed : Tx → Bool) (fee : Nat) (c : Tx)
    (mandatory : List (CoinID × CoinDataHeight))
    (hcoins : (st.coins.map Prod.fst).Nodup)
    (hmand : resolveMandatory st inputs = .ok mandatory)
    (h : buildCandidate covenant covhash outputs mandatory nobalance
      (getCoinMapping st covhash true false) isWellFormed fee = .ok c) :
    c.fee = fee ∧
    ∀ d, (d ∈ outputs.map CoinData.denom ∨ d = Denom.mel) → d ∉ nobalance →
      inputsSumByDenom (getOneCoin st) c.inputs d =
        outputsSumByDenom c.outputs d + (if d = Denom.mel then fee else 0) := by
  obtain ⟨change, hchg, hc⟩ := buildCandidate_ok_parts covenant covhash outputs mandatory
    nobalance (getCoinMapping st covhash true false) isWellFormed fee c h
  constructor
  · rw [hc]
  intro d hd1 hd2
  have htxout : (Tx.mk TxKind.normal [] outputs fee [covenant] [] []).outputs = outputs := rfl
  have htxfee : (Tx.mk TxKind.normal [] outputs fee [covenant] [] []).fee = fee := rfl
  have hOSnodup : ((removeDenoms
      (totalOutputs (Tx.mk TxKind.normal [] outputs fee [covenant] [] []))
      nobalance).map Prod.fst).Nodup :=
    removeDenoms_keys_nodup _ _ (totalOutputs_keys_nodup _)
  have hkmem : d ∈ (removeDenoms
      (totalOutputs (Tx.mk TxKind.normal [] outputs fee [covenant] [] []))
      nobalance).map Prod.fst := by
    rw [mem_keys_removeDenoms, mem_keys_totalOutputs]
    exact ⟨by simpa using hd1, hd2⟩
  cases hs : tlookup (removeDenoms
      (totalOutputs (Tx.mk TxKind.normal [] outputs fee [covenant] [] []))
      nobalance) d with
  | none =>
    exfalso
    have := tlookup_isSome_of_key_mem hkmem
    rw [hs] at this
    simp at this
  | some s =>
    have hsmem := mem_of_tlookup hs
    have hgdOS : getD (removeDenoms
        (totalOutputs (Tx.mk TxKind.normal [] outputs fee [covenant] [] []))
        nobalance) d = s := by
      unfold getD
      rw [hs]
      rfl
    unfold changeOutputs at hchg
    obtain ⟨hchange_eq, hall⟩ := changeOutputs_fold covhash _ _ [] change hchg
    rw [List.nil_append] at hchange_eq
    have hle : s ≤ getD (selectCoins mandatory nobalance covhash
        (getCoinMapping st covhash true false)
        (removeDenoms (totalOutputs (Tx.mk TxKind.normal [] outputs fee [covenant] [] []))
          nobalance)
        (mandatory.map (fun q => q.1))
        (removeDenoms (mandatory.foldl (fun m q => tupsert m q.2.coinData.denom
          (getD m q.2.coinData.denom + q.2.coinData.value)) []) nobalance)).2 d :=
      hall (d, s) hsmem
    have hchsum : outputsSumByDenom change d = getD (selectCoins mandatory nobalance covhash
        (getCoinMapping st covhash true false)
        (removeDenoms (totalOutputs (Tx.mk TxKind.normal [] outputs fee [covenant] [] []))
          nobalance)
        (mandatory.map (fun q => q.1))
        (removeDenoms (mandatory.foldl (fun m q => tupsert m q.2.coinData.denom
          (getD m q.2.coinData.denom + q.2.coinData.value)) []) nobalance)).2 d - s := by
      rw [hchange_eq, outputsSum_filter, flatten_filter_block covhash _ _ d s hOSnodup hsmem,
        changeBlock_sum covhash _ d s hle]
    have hdata : ∀ q ∈ mandatory, getOneCoin st q.1 = some q.2.coinData := by
      intro q hq
      exact getCoinConfirmation_coinData ((resolveMandatory_props st inputs mandatory hmand).2 q hq)
    have hbase : getD (removeDenoms (mandatory.foldl (fun m q => tupsert m q.2.coinData.denom
        (getD m q.2.coinData.denom + q.2.coinData.value)) []) nobalance) d =
        inputsSumByDenom (getOneCoin st) (mandatory.map (fun q => q.1)) d := by
      rw [getD_removeDenoms _ _ _ hd2, getD_mandatoryFold]
      rw [mandatory_inputsSum st mandatory hdata d]
      simp [getD, tlookup]
    have hsel := selectCoins_sum st mandatory nobalance covhash
      (removeDenoms (totalOutputs (Tx.mk TxKind.normal [] outputs fee [covenant] [] []))
        nobalance)
      (getCoinMapping st covhash true false)
      (getCoinMapping_data st covhash true false hcoins)
      (mandatory.map (fun q => q.1))
      (removeDenoms (mandatory.foldl (fun m q => tupsert m q.2.coinData.denom
        (getD m q.2.coinData.denom + q.2.coinData.value)) []) nobalance) d hbase
    have hOSval : getD (removeDenoms
        (totalOutputs (Tx.mk TxKind.normal [] outputs fee [covenant] [] []))
        nobalance) d = outputsSumByDenom outputs d + (if d = Denom.mel then fee else 0) := by
      rw [getD_removeDenoms _ _ _ hd2, getD_totalOutputs, htxout, htxfee]
    rw [hc]
    show inputsSumByDenom (getOneCoin st) (selectCoins mandatory nobalance covhash
        (getCoinMapping st covhash true false)
        (removeDenoms (totalOutputs (Tx.mk TxKind.normal [] outputs fee [covenant] [] []))
          nobalance)
        (mandatory.map (fun q => q.1))
        (removeDenoms (mandatory.foldl (fun m q => tupsert m q.2.coinData.denom
          (getD m q.2.coinData.denom + q.2.coinData.value)) []) nobalance)).1 d =
      outputsSumByDenom (outputs ++ change) d + (if d = Denom.mel then fee else 0)
    rw [← hsel, outputsSumByDenom_append]
    rw [hOSval] at hgdOS
    omega

theorem prepare_ok_gen (st : DB) (covhash : Nat) (covenant : List Nat)
    (inputs : List CoinID) (outputs : List CoinData) (sign : Tx → Except Err Tx)
    (nobalance0 : List Denom) (isWellFormed : Tx → Bool) (baseFee : Tx → Nat) (tx : Tx)
    (h : prepare st covhash covenant inputs outputs sign nobalance0 isWellFormed baseFee
      = .ok tx) :
    ∃ mandatory i, resolveMandatory st inputs = .ok mandatory ∧
      genTransaction covenant covhash outputs mandatory (nobalance0 ++ [Denom.newCoin])
        (getCoinMapping st covhash true false) isWellFormed sign baseFee i =
        .high (.ok tx) := by
  unfold prepare at h
  cases hm : resolveMandatory st inputs with
  | error e =>
    simp only [hm] at h
    exact Except.noConfusion h
  | ok mandatory =>
    simp only [hm] at h
    split at h
    · case h_1 t heq =>
      have htx : t = tx := Except.ok.inj h
      subst htx
      have hp := binarySearch_high_payload
        (genTransaction covenant covhash outputs mandatory (nobalance0 ++ [Denom.newCoin])
          (getCoinMapping st covhash true false) isWellFormed sign baseFee)
        (Nat.dist 0 (prepareMaxFee st covhash covenant outputs mandatory
          (nobalance0 ++ [Denom.newCoin]) isWellFormed sign baseFee))
        (0, Except.error Err.nothing)
        (prepareMaxFee st covhash covenant outputs mandatory
          (nobalance0 ++ [Denom.newCoin]) isWellFormed sign baseFee,
          Except.error Err.nothing)
        (Nat.le_refl _)
      rcases hp with hp | ⟨i, hi⟩
      · rw [heq] at hp
        exact Except.noConfusion hp
      · rw [heq] at hi
        exact ⟨mandatory, i, rfl, hi⟩
    · exact Except.noConfusion h

/-- Claim C1 (amended): whenever prepare succeeds, the returned signed
transaction pays a fee STRICTLY GREATER than base_fee * 21 / 20 (the
destructuring in the source returns the smallest-High payload of the
fee binary search, i.e. the cheapest probed candidate whose fee exceeds
the bound, not the last Low one); and for every denom d of the balanced
output sum, i.e. d among the output denoms or Mel and d outside
nobalance plus the NewCustom sentinel, the summed value of the inputs
carrying d equals the summed value of the outputs carrying d, plus the
fee when d is Mel.  sign is assumed to change nothing besides kind,
data, covenants and sigs, as the signers of this daemon do. -/
theorem prepare_fee_and_balance (st : DB) (covhash : Nat) (covenant : List Nat)
    (inputs : List CoinID) (outputs : List CoinData) (sign : Tx → Except Err Tx)
    (nobalance0 : List Denom) (isWellFormed : Tx → Bool) (baseFee : Tx → Nat) (tx : Tx)
    (hcoins : (st.coins.map Prod.fst).Nodup)
    (hsign : ∀ t t2, sign t = .ok t2 →
      t2.inputs = t.inputs ∧ t2.outputs = t.outputs ∧ t2.fee = t.fee)
    (h : prepare st covhash covenant inputs outputs sign nobalance0 isWellFormed baseFee
      = .ok tx) :
    baseFee tx * 21 / 20 < tx.fee ∧
    ∀ d, (d ∈ outputs.map CoinData.denom ∨ d = Denom.mel) →
      d ∉ nobalance0 ++ [Denom.newCoin] →
      inputsSumByDenom (getOneCoin st) tx.inputs d =
        outputsSumByDenom tx.outputs d + (if d = Denom.mel then tx.fee else 0) := by
  obtain ⟨mandatory, i, hmand, hgen⟩ := prepare_ok_gen st covhash covenant inputs outputs
    sign nobalance0 isWellFormed baseFee tx h
  obtain ⟨c, hcand, hsigned, hfee⟩ := genTransaction_high_ok covenant covhash outputs
    mandatory (nobalance0 ++ [Denom.newCoin]) (getCoinMapping st covhash true false)
    isWellFormed sign baseFee i tx hgen
  obtain ⟨hinp, hout, hfeq⟩ := hsign c tx hsigned
  obtain ⟨hcfee, hbal⟩ := buildCandidate_balance st covhash covenant inputs outputs
    (nobalance0 ++ [Denom.newCoin]) isWellFormed i c mandatory hcoins hmand hcand
  constructor
  · omega
  · intro d hd1 hd2
    rw [hinp, hout, hfeq, hcfee]
    exact hbal d hd1 hd2


/-- binarySearch agrees with its fuel-based unfolding once the fuel
covers the distance between the bounds. -/
theorem binarySearch_eq_fuel {α : Type} (fuel : Nat) (f : Nat → Direction α)
    (lo hi : Nat × α) (h : Nat.dist lo.1 hi.1 ≤ fuel) :
    binarySearch f lo hi = binarySearchFuel fuel f lo hi := by
  induction fuel generalizing lo hi with
  | zero =>
    have hl : (lo.1 + hi.1) / 2 = lo.1 ∨ (lo.1 + hi.1) / 2 = hi.1 := by
      simp only [Nat.dist] at h
      omega
    rw [binarySearch]
    exact if_pos hl
  | succ n ih =>
    by_cases hc : (lo.1 + hi.1) / 2 = lo.1 ∨ (lo.1 + hi.1) / 2 = hi.1
    · have e1 : binarySearch f lo hi = (lo, hi) := by
        rw [binarySearch]
        exact if_pos hc
      have e2 : binarySearchFuel (n + 1) f lo hi = (lo, hi) := if_pos hc
      rw [e1, e2]
    · have hc1 : ¬((lo.1 + hi.1) / 2 = lo.1) := fun hx => hc (Or.inl hx)
      have hc2 : ¬((lo.1 + hi.1) / 2 = hi.1) := fun hx => hc (Or.inr hx)
      have e1 : binarySearch f lo hi = match f ((lo.1 + hi.1) / 2) with
          | Direction.low v => binarySearch f ((lo.1 + hi.1) / 2, v) hi
          | Direction.high v => binarySearch f lo ((lo.1 + hi.1) / 2, v) := by
        rw [binarySearch]
        exact if_neg hc
      have e2 : binarySearchFuel (n + 1) f lo hi = match f ((lo.1 + hi.1) / 2) with
          | Direction.low v => binarySearchFuel n f ((lo.1 + hi.1) / 2, v) hi
          | Direction.high v => binarySearchFuel n f lo ((lo.1 + hi.1) / 2, v) := if_neg hc
      rw [e1, e2]
      cases hf : f ((lo.1 + hi.1) / 2) with
      | low v =>
        exact ih ((lo.1 + hi.1) / 2, v) hi (by simp only [Nat.dist] at h ⊢; omega)
      | high v =>
        exact ih lo ((lo.1 + hi.1) / 2, v) (by simp only [Nat.dist] at h ⊢; omega)

/-- prepare expressed through the fuel-based binary search, for
concrete evaluation. -/
theorem prepare_eq_fuel (st : DB) (covhash : Nat) (covenant : List Nat)
    (inputs : List CoinID) (outputs : List CoinData) (sign : Tx → Except Err Tx)
    (nobalance0 : List Denom) (isWellFormed : Tx → Bool) (baseFee : Tx → Nat)
    (fuel : Nat) (mandatory : List (CoinID × CoinDataHeight))
    (hres : resolveMandatory st inputs = .ok mandatory)
    (hfuel : prepareMaxFee st covhash covenant outputs mandatory
      (nobalance0 ++ [Denom.newCoin]) isWellFormed sign baseFee ≤ fuel) :
    prepare st covhash covenant inputs outputs sign nobalance0 isWellFormed baseFee =
      match (binarySearchFuel fuel
          (genTransaction covenant covhash outputs mandatory (nobalance0 ++ [Denom.newCoin])
            (getCoinMapping st covhash true false) isWellFormed sign baseFee)
          (0, Except.error Err.nothing)
          (prepareMaxFee st covhash covenant outputs mandatory (nobalance0 ++ [Denom.newCoin])
            isWellFormed sign baseFee, Except.error Err.nothing)).2.2 with
      | .ok t => .ok t
      | .error _ => .error .preparationFailed := by
  simp only [prepare, hres]
  rw [binarySearch_eq_fuel fuel
    (genTransaction covenant covhash outputs mandatory (nobalance0 ++ [Denom.newCoin])
      (getCoinMapping st covhash true false) isWellFormed sign baseFee)
    (0, Except.error Err.nothing)
    (prepareMaxFee st covhash covenant outputs mandatory (nobalance0 ++ [Denom.newCoin])
      isWellFormed sign baseFee, Except.error Err.nothing)
    (by simp only [Nat.dist]; omega)]

/-- prepare evaluated on the concrete wallet c1DB: it succeeds and
returns c1Tx. -/
theorem prepare_concrete_eval :
    prepare c1DB 9 [] [CoinID.mk 2 0] [CoinData.mk 77 50 Denom.mel []]
      (fun t => Except.ok t) [] (fun _ => true) (fun _ => 10) = Except.ok c1Tx := by
  have h1 : resolveMandatory c1DB [CoinID.mk 2 0] =
      Except.ok [(CoinID.mk 2 0, CoinDataHeight.mk (CoinData.mk 9 7 Denom.sym []) 3)] := rfl
  have h2 : prepareMaxFee c1DB 9 [] [CoinData.mk 77 50 Denom.mel []]
      [(CoinID.mk 2 0, CoinDataHeight.mk (CoinData.mk 9 7 Denom.sym []) 3)]
      ([] ++ [Denom.newCoin]) (fun _ => true) (fun t => Except.ok t) (fun _ => 10) ≤ 200 := by
    decide
  rw [prepare_eq_fuel c1DB 9 [] [CoinID.mk 2 0] [CoinData.mk 77 50 Denom.mel []]
    (fun t => Except.ok t) [] (fun _ => true) (fun _ => 10) 200
    [(CoinID.mk 2 0, CoinDataHeight.mk (CoinData.mk 9 7 Denom.sym []) 3)] h1 h2]
  decide

/-- Counterexample for claim C1 as stated: on the concrete wallet c1DB
(a 1000-Mel coin and a 7-Sym coin), with the Sym coin passed as a
mandatory input, one 50-Mel output and constant base fee 10, prepare
succeeds and returns c1Tx with fee 11, which VIOLATES the claimed bound
fee less-or-equal base_fee * 21 / 20 = 10 (the source destructures the
binary search result taking the smallest-High payload, whose fee
strictly exceeds the bound); and the Sym denom, which is not in
nobalance and is not the NewCustom sentinel, is unbalanced: its input
sum is 7 while its output sum is 0. -/
theorem prepare_fee_balance_counterexample :
    prepare c1DB 9 [] [CoinID.mk 2 0] [CoinData.mk 77 50 Denom.mel []]
      (fun t => Except.ok t) [] (fun _ => true) (fun _ => 10) = Except.ok c1Tx ∧
    ¬(c1Tx.fee ≤ 10 * 21 / 20) ∧
    Denom.sym ∉ ([] : List Denom) ∧ Denom.sym ≠ Denom.newCoin ∧
    inputsSumByDenom (getOneCoin c1DB) c1Tx.inputs Denom.sym = 7 ∧
    outputsSumByDenom c1Tx.outputs Denom.sym = 0 :=
  ⟨prepare_concrete_eval, by decide, by decide, by decide, by decide, by decide⟩

/-- Witness for the amended claim C1 theorem, at the concrete wallet
c1DB with its prepared transaction c1Tx: the fee strictly exceeds
base_fee * 21 / 20, and the Mel denom balances with the fee. -/
theorem prepare_fee_and_balance_witness :
    (fun (_ : Tx) => (10 : Nat)) c1Tx * 21 / 20 < c1Tx.fee ∧
    inputsSumByDenom (getOneCoin c1DB) c1Tx.inputs Denom.mel =
      outputsSumByDenom c1Tx.outputs Denom.mel +
        (if Denom.mel = Denom.mel then c1Tx.fee else 0) := by
  have H := prepare_fee_and_balance c1DB 9 [] [CoinID.mk 2 0]
    [CoinData.mk 77 50 Denom.mel []] (fun t => Except.ok t) [] (fun _ => true)
    (fun _ => 10) c1Tx
    (by decide)
    (by
      intro t t2 ht
      cases Except.ok.inj ht
      exact ⟨rfl, rfl, rfl⟩)
    prepare_concrete_eval
  exact ⟨H.1, H.2 Denom.mel (Or.inr rfl) (by decide)⟩
